import Mathlib

/-!
# Verification of the faas-cli concurrent build dispatcher

Shallow embedding of the `build` dispatcher of `commands/build.go`, of the
single-function branch of `runBuild`, and of `parseMap` from
`commands/deploy.go`.

The dispatcher (`func build(services *stack.Services, queueDepth int,
shrinkwrap bool)`) spawns `queueDepth` worker goroutines, each of which does
`wg.Add(1)` and then ranges over an unbuffered channel of `stack.Function`,
printing a start marker, calling `builder.BuildImage` when the language is
non-empty, and printing a done marker.  The producer iterates the function
map, printing a skip notice for `SkipBuild` entries and sending the others
(after `function.Name = k`).  On return the deferred `close(workChannel)`
and `wg.Wait()` run.

We model this as a small-step state machine.  Nondeterministic goroutine
scheduling is captured by an explicit schedule: a list of choices naming
which routine (the producer/main routine, or worker `i`) performs its next
atomic action.  `run` folds the step function over a schedule, so the
states reachable in some interleaving are exactly the values of `run` over
all schedules.
-/

namespace FaasCli

/-- One function record, as in `stack.Function` (the fields read by
`commands/build.go`): `Name`, `Image`, `Handler`, `Language`, `SkipBuild`. -/
structure Function where
  name : String
  image : String
  handler : String
  language : String
  skipBuild : Bool
deriving DecidableEq, Repr

/-- `services.Functions`, an ordered mapping from function name (the map
key) to its record; the list order is the iteration order of the Go map in
this run. -/
abbrev FunctionSet := List (String × Function)

/-- `function.Name = k`: the producer overwrites the record's Name with the
map key before sending it on the work channel (build.go line 155). -/
def setKeyName (k : String) (f : Function) : Function := { f with name := k }

/-- Observable actions of a dispatch, in the order they occur.  `spawn` is
the execution of a `go func(index int)` statement, `handoff` is the
completion of an unbuffered channel send, `skip`/`start`/`build`/`langMsg`/
`done`/`workerDone` are the prints and the `builder.BuildImage` call. -/
inductive Event where
  | spawn (idx : Nat)
  | skip (name : String)
  | handoff (name : String)
  | start (idx : Nat) (name : String)
  | build (f : Function)
  | langMsg
  | done (idx : Nat) (name : String)
  | workerDone (idx : Nat)
deriving DecidableEq, Repr

/-- Program counter of one worker goroutine (build.go lines 134-148):
`spawned` = goroutine created but `wg.Add(1)` not yet executed; `idle` =
inside the range loop waiting to receive; `gotWork f` = received `f`, start
marker not yet printed; `printedStart f` = start marker printed,
`builder.BuildImage` (or the empty-language message) not yet executed;
`builtWork f` = build done, done marker not yet printed; `exited` = range
loop exited, worker-done line printed, `wg.Done()` executed. -/
inductive WorkerState where
  | spawned
  | idle
  | gotWork (f : Function)
  | printedStart (f : Function)
  | builtWork (f : Function)
  | exited
deriving DecidableEq, Repr

/-- Program counter of the producer (the `build` call itself):
`spawning i` = in the worker-spawn loop having spawned `i` workers;
`producing rest` = in the production loop with `rest` still to process;
`sending g rest` = blocked on the unbuffered send of `g`; `waiting` =
channel closed, blocked in `wg.Wait()`; `returned` = `build` returned. -/
inductive MainState where
  | spawning (i : Nat)
  | producing (rest : FunctionSet)
  | sending (g : Function) (rest : FunctionSet)
  | waiting
  | returned
deriving DecidableEq, Repr

/-- Whole-dispatch state: the producer, the workers (worker `i` is the
`i`-th entry, matching the `index` argument of its closure), the WaitGroup
counter, whether `workChannel` is closed, and the trace of events so far. -/
structure DispatchState where
  main : MainState
  workers : List WorkerState
  wg : Nat
  closed : Bool
  trace : List Event
deriving DecidableEq, Repr

/-- A scheduling choice: which goroutine executes its next atomic action.
A choice whose routine is blocked (or does not exist) is a no-op. -/
inductive Choice where
  | mainC
  | workerC (i : Nat)
deriving DecidableEq, Repr

def initState : DispatchState :=
  { main := .spawning 0, workers := [], wg := 0, closed := false, trace := [] }

/-- One atomic action of the producer routine of `build` (build.go lines
133, 151-158 and the deferred close/wait of lines 128 and 131).  `d` is
`queueDepth`, `fs` the function set. -/
def mainStep (d : Int) (fs : FunctionSet) (s : DispatchState) : DispatchState :=
  match s.main with
  | .spawning i =>
      if (i : Int) < d then
        { s with main := .spawning (i + 1),
                 workers := s.workers ++ [.spawned],
                 trace := s.trace ++ [.spawn i] }
      else
        { s with main := .producing fs }
  | .producing [] =>
      { s with main := .waiting, closed := true }
  | .producing ((k, f) :: rest) =>
      if f.skipBuild then
        { s with main := .producing rest, trace := s.trace ++ [.skip f.name] }
      else
        { s with main := .sending (setKeyName k f) rest }
  | .sending _ _ => s
  | .waiting => if s.wg = 0 then { s with main := .returned } else s
  | .returned => s

/-- One atomic action of worker `i` (build.go lines 134-148).  Receiving
from the unbuffered channel is the rendezvous with a blocked send;
receiving on the closed channel exits the range loop. -/
def workerStep (i : Nat) (s : DispatchState) : DispatchState :=
  match s.workers[i]? with
  | none => s
  | some w =>
    match w with
    | .spawned =>
        { s with workers := s.workers.set i .idle, wg := s.wg + 1 }
    | .idle =>
        match s.main with
        | .sending g rest =>
            { s with workers := s.workers.set i (.gotWork g),
                     main := .producing rest,
                     trace := s.trace ++ [.handoff g.name] }
        | m =>
            if s.closed then
              { s with main := m, workers := s.workers.set i .exited,
                       wg := s.wg - 1, trace := s.trace ++ [.workerDone i] }
            else s
    | .gotWork g =>
        { s with workers := s.workers.set i (.printedStart g),
                 trace := s.trace ++ [.start i g.name] }
    | .printedStart g =>
        { s with workers := s.workers.set i (.builtWork g),
                 trace := s.trace ++
                   (if g.language = "" then [.langMsg] else [.build g]) }
    | .builtWork g =>
        { s with workers := s.workers.set i .idle,
                 trace := s.trace ++ [.done i g.name] }
    | .exited => s

def step (d : Int) (fs : FunctionSet) (s : DispatchState) : Choice → DispatchState
  | .mainC => mainStep d fs s
  | .workerC i => workerStep i s

/-- All states of a dispatch `build(fs, d)` reachable under the
interleaving described by `sched`. -/
def run (fs : FunctionSet) (d : Int) (sched : List Choice) : DispatchState :=
  sched.foldl (step d fs) initState

/-! ## Counting observations -/

/-- Number of `builder.BuildImage` invocations for function name `n` in a
trace: the Build Executor's invocation log restricted to `n`. -/
def buildCount (n : String) (tr : List Event) : Nat :=
  tr.countP fun e => match e with | .build g => g.name == n | _ => false

/-- Number of start markers (`[i] > Building n.`) for name `n`. -/
def startCount (n : String) (tr : List Event) : Nat :=
  tr.countP fun e => match e with | .start _ m => m == n | _ => false

/-- Number of done markers (`[i] < Building n done.`) for name `n`. -/
def doneCount (n : String) (tr : List Event) : Nat :=
  tr.countP fun e => match e with | .done _ m => m == n | _ => false

/-- Number of `Skipping build of: n.` notices for name `n`. -/
def skipCount (n : String) (tr : List Event) : Nat :=
  tr.countP fun e => match e with | .skip m => m == n | _ => false

def isSpawnEv : Event → Bool
  | .spawn _ => true
  | _ => false

/-- Worker currently holds a descriptor named `n` (it has dequeued it and
not yet printed its done marker). -/
def holdsN (n : String) : WorkerState → Bool
  | .gotWork g => g.name == n
  | .printedStart g => g.name == n
  | .builtWork g => g.name == n
  | _ => false

/-- Worker holds a descriptor named `n` and has not yet printed its start
marker. -/
def gotN (n : String) : WorkerState → Bool
  | .gotWork g => g.name == n
  | _ => false

/-- Worker holds a descriptor named `n` with non-empty language for which
`builder.BuildImage` has not yet been invoked. -/
def preBuildN (n : String) : WorkerState → Bool
  | .gotWork g => g.name == n && !(g.language == "")
  | .printedStart g => g.name == n && !(g.language == "")
  | _ => false

/-- Worker holds some descriptor (is between a dequeue and the matching
done marker). -/
def holdsAny : WorkerState → Bool
  | .gotWork _ => true
  | .printedStart _ => true
  | .builtWork _ => true
  | _ => false

/-- Worker has executed `wg.Add(1)` and not yet `wg.Done()`. -/
def isActive : WorkerState → Bool
  | .spawned => false
  | .exited => false
  | _ => true

/-- Number of workers of `s` currently holding a descriptor named `n`. -/
def heldCount (n : String) (s : DispatchState) : Nat :=
  s.workers.countP (holdsN n)

/-! ## Token ledgers

Per function name `n` we account for where its build obligations are: still
ahead of the producer, held in a blocked send, held by a worker, or already
recorded in the trace.  Summing these is invariant under every step, which
yields the exactly-once properties. -/

/-- Entry still to be enqueued and counted for name `n`: not skipped, and
its map key (the name it will carry once sent) is `n`. -/
def keyTok (n : String) (e : String × Function) : Bool :=
  !e.2.skipBuild && (e.1 == n)

/-- Entry counted for name `n` that will reach the Build Executor: not
skipped, key `n`, non-empty language. -/
def keyTokB (n : String) (e : String × Function) : Bool :=
  !e.2.skipBuild && (e.1 == n) && !(e.2.language == "")

/-- Skipped entry whose notice will carry name `n` (the record's Name
field, not the map key: build.go prints before `function.Name = k`). -/
def skipTok (n : String) (e : String × Function) : Bool :=
  e.2.skipBuild && (e.2.name == n)

def slotN (n : String) (g : Function) : Bool := g.name == n

def slotBN (n : String) (g : Function) : Bool :=
  g.name == n && !(g.language == "")

/-- Obligations for entries the producer has not yet handed to a worker,
counted under entry predicate `pE` and blocked-send-slot predicate `pS`. -/
def pendCount (pE : String × Function → Bool) (pS : Function → Bool)
    (fs : FunctionSet) : MainState → Nat
  | .spawning _ => fs.countP pE
  | .producing rest => rest.countP pE
  | .sending g rest => rest.countP pE + (if pS g then 1 else 0)
  | .waiting => 0
  | .returned => 0

/-- The entries the producer has not yet taken off the iteration. -/
def restList (fs : FunctionSet) : MainState → FunctionSet
  | .spawning _ => fs
  | .producing rest => rest
  | .sending _ rest => rest
  | .waiting => []
  | .returned => []

/-- Invariant of the dispatcher, for every reachable state of
`build(fs, d)`. -/
structure Inv (d : Int) (fs : FunctionSet) (s : DispatchState) : Prop where
  spawnPhase : ∀ i, s.main = .spawning i →
    s.workers.length = i ∧ i ≤ d.toNat ∧ s.closed = false ∧
    s.trace = (List.range i).map Event.spawn
  postLen : (∀ i, s.main ≠ .spawning i) → s.workers.length = d.toNat
  wgEq : s.wg = s.workers.countP isActive
  noWorkAtReturn : s.main = .returned → ∀ w ∈ s.workers, holdsAny w = false
  pendMem : ∀ e ∈ restList fs s.main, e ∈ fs
  ledgerTotal : ∀ n, fs.countP (keyTok n) =
    pendCount (keyTok n) (slotN n) fs s.main +
      s.workers.countP (holdsN n) + doneCount n s.trace
  ledgerStart : ∀ n, fs.countP (keyTok n) =
    pendCount (keyTok n) (slotN n) fs s.main +
      s.workers.countP (gotN n) + startCount n s.trace
  ledgerBuild : ∀ n, fs.countP (keyTokB n) =
    pendCount (keyTokB n) (slotBN n) fs s.main +
      s.workers.countP (preBuildN n) + buildCount n s.trace
  ledgerSkip : ∀ n, fs.countP (skipTok n) =
    pendCount (skipTok n) (fun _ => false) fs s.main + skipCount n s.trace
  skipProv : ∀ n, Event.skip n ∈ s.trace →
    ∃ e ∈ fs, e.2.skipBuild = true ∧ e.2.name = n
  traceSpawn : ∃ rest,
    s.trace = (List.range s.workers.length).map Event.spawn ++ rest ∧
    ∀ e ∈ rest, isSpawnEv e = false

/-! ## Counting helper lemmas -/

theorem countP_snoc {α : Type} (l : List α) (a : α) (p : α → Bool) :
    (l ++ [a]).countP p = l.countP p + if p a then 1 else 0 := by
  simp [List.countP_append, List.countP_cons]

theorem countP_set_add {α : Type} (l : List α) (i : Nat) (a b : α)
    (p : α → Bool) (h : l[i]? = some a) :
    (l.set i b).countP p + (if p a then 1 else 0) =
      l.countP p + (if p b then 1 else 0) := by
  induction l generalizing i with
  | nil => simp at h
  | cons x xs ih =>
      cases i with
      | zero =>
          simp only [List.getElem?_cons_zero, Option.some.injEq] at h
          subst h
          simp only [List.set_cons_zero, List.countP_cons]
          omega
      | succ j =>
          simp only [List.getElem?_cons_succ] at h
          simp only [List.set_cons_succ, List.countP_cons]
          have := ih j h
          omega

theorem countP_pos_of_getElem? {α : Type} {l : List α} {i : Nat} {a : α}
    (p : α → Bool) (h : l[i]? = some a) (hp : p a = true) :
    0 < l.countP p :=
  List.countP_pos_iff.mpr ⟨a, List.getElem?_mem h, hp⟩

/-- In any state whose producer is still spawning workers, no worker holds
a descriptor (nothing has been enqueued yet). -/
theorem held_zero_of_spawning {d : Int} {fs : FunctionSet} {s : DispatchState}
    (h : Inv d fs s) {j : Nat} (hm : s.main = .spawning j) (n : String) :
    s.workers.countP (holdsN n) = 0 := by
  have := h.ledgerTotal n
  rw [hm] at this
  simp only [pendCount] at this
  omega

@[simp] theorem ite_false_bool {α : Sort _} (a b : α) : (if (false = true) then a else b) = b := rfl

@[simp] theorem ite_true_bool {α : Sort _} (a b : α) : (if (true = true) then a else b) = a := rfl

/-! Evaluation of the trace counters on each appended event. -/

@[simp] theorem buildCount_snoc_spawn (n : String) (tr : List Event) (i : Nat) :
    buildCount n (tr ++ [.spawn i]) = buildCount n tr := by
  simp [buildCount, countP_snoc, List.countP_cons]

@[simp] theorem buildCount_snoc_skip (n : String) (tr : List Event) (m : String) :
    buildCount n (tr ++ [.skip m]) = buildCount n tr := by
  simp [buildCount, countP_snoc, List.countP_cons]

@[simp] theorem buildCount_snoc_handoff (n : String) (tr : List Event) (m : String) :
    buildCount n (tr ++ [.handoff m]) = buildCount n tr := by
  simp [buildCount, countP_snoc, List.countP_cons]

@[simp] theorem buildCount_snoc_start (n : String) (tr : List Event) (i : Nat) (m : String) :
    buildCount n (tr ++ [.start i m]) = buildCount n tr := by
  simp [buildCount, countP_snoc, List.countP_cons]

@[simp] theorem buildCount_snoc_build (n : String) (tr : List Event) (f : Function) :
    buildCount n (tr ++ [.build f]) = buildCount n tr + (if f.name == n then 1 else 0) := by
  simp [buildCount, countP_snoc, List.countP_cons]

@[simp] theorem buildCount_snoc_langMsg (n : String) (tr : List Event) :
    buildCount n (tr ++ [.langMsg]) = buildCount n tr := by
  simp [buildCount, countP_snoc, List.countP_cons]

@[simp] theorem buildCount_snoc_done (n : String) (tr : List Event) (i : Nat) (m : String) :
    buildCount n (tr ++ [.done i m]) = buildCount n tr := by
  simp [buildCount, countP_snoc, List.countP_cons]

@[simp] theorem buildCount_snoc_workerDone (n : String) (tr : List Event) (i : Nat) :
    buildCount n (tr ++ [.workerDone i]) = buildCount n tr := by
  simp [buildCount, countP_snoc, List.countP_cons]

@[simp] theorem startCount_snoc_spawn (n : String) (tr : List Event) (i : Nat) :
    startCount n (tr ++ [.spawn i]) = startCount n tr := by
  simp [startCount, countP_snoc, List.countP_cons]

@[simp] theorem startCount_snoc_skip (n : String) (tr : List Event) (m : String) :
    startCount n (tr ++ [.skip m]) = startCount n tr := by
  simp [startCount, countP_snoc, List.countP_cons]

@[simp] theorem startCount_snoc_handoff (n : String) (tr : List Event) (m : String) :
    startCount n (tr ++ [.handoff m]) = startCount n tr := by
  simp [startCount, countP_snoc, List.countP_cons]

@[simp] theorem startCount_snoc_start (n : String) (tr : List Event) (i : Nat) (m : String) :
    startCount n (tr ++ [.start i m]) = startCount n tr + (if m == n then 1 else 0) := by
  simp [startCount, countP_snoc, List.countP_cons]

@[simp] theorem startCount_snoc_build (n : String) (tr : List Event) (f : Function) :
    startCount n (tr ++ [.build f]) = startCount n tr := by
  simp [startCount, countP_snoc, List.countP_cons]

@[simp] theorem startCount_snoc_langMsg (n : String) (tr : List Event) :
    startCount n (tr ++ [.langMsg]) = startCount n tr := by
  simp [startCount, countP_snoc, List.countP_cons]

@[simp] theorem startCount_snoc_done (n : String) (tr : List Event) (i : Nat) (m : String) :
    startCount n (tr ++ [.done i m]) = startCount n tr := by
  simp [startCount, countP_snoc, List.countP_cons]

@[simp] theorem startCount_snoc_workerDone (n : String) (tr : List Event) (i : Nat) :
    startCount n (tr ++ [.workerDone i]) = startCount n tr := by
  simp [startCount, countP_snoc, List.countP_cons]

@[simp] theorem doneCount_snoc_spawn (n : String) (tr : List Event) (i : Nat) :
    doneCount n (tr ++ [.spawn i]) = doneCount n tr := by
  simp [doneCount, countP_snoc, List.countP_cons]

@[simp] theorem doneCount_snoc_skip (n : String) (tr : List Event) (m : String) :
    doneCount n (tr ++ [.skip m]) = doneCount n tr := by
  simp [doneCount, countP_snoc, List.countP_cons]

@[simp] theorem doneCount_snoc_handoff (n : String) (tr : List Event) (m : String) :
    doneCount n (tr ++ [.handoff m]) = doneCount n tr := by
  simp [doneCount, countP_snoc, List.countP_cons]

@[simp] theorem doneCount_snoc_start (n : String) (tr : List Event) (i : Nat) (m : String) :
    doneCount n (tr ++ [.start i m]) = doneCount n tr := by
  simp [doneCount, countP_snoc, List.countP_cons]

@[simp] theorem doneCount_snoc_build (n : String) (tr : List Event) (f : Function) :
    doneCount n (tr ++ [.build f]) = doneCount n tr := by
  simp [doneCount, countP_snoc, List.countP_cons]

@[simp] theorem doneCount_snoc_langMsg (n : String) (tr : List Event) :
    doneCount n (tr ++ [.langMsg]) = doneCount n tr := by
  simp [doneCount, countP_snoc, List.countP_cons]

@[simp] theorem doneCount_snoc_done (n : String) (tr : List Event) (i : Nat) (m : String) :
    doneCount n (tr ++ [.done i m]) = doneCount n tr + (if m == n then 1 else 0) := by
  simp [doneCount, countP_snoc, List.countP_cons]

@[simp] theorem doneCount_snoc_workerDone (n : String) (tr : List Event) (i : Nat) :
    doneCount n (tr ++ [.workerDone i]) = doneCount n tr := by
  simp [doneCount, countP_snoc, List.countP_cons]

@[simp] theorem skipCount_snoc_spawn (n : String) (tr : List Event) (i : Nat) :
    skipCount n (tr ++ [.spawn i]) = skipCount n tr := by
  simp [skipCount, countP_snoc, List.countP_cons]

@[simp] theorem skipCount_snoc_skip (n : String) (tr : List Event) (m : String) :
    skipCount n (tr ++ [.skip m]) = skipCount n tr + (if m == n then 1 else 0) := by
  simp [skipCount, countP_snoc, List.countP_cons]

@[simp] theorem skipCount_snoc_handoff (n : String) (tr : List Event) (m : String) :
    skipCount n (tr ++ [.handoff m]) = skipCount n tr := by
  simp [skipCount, countP_snoc, List.countP_cons]

@[simp] theorem skipCount_snoc_start (n : String) (tr : List Event) (i : Nat) (m : String) :
    skipCount n (tr ++ [.start i m]) = skipCount n tr := by
  simp [skipCount, countP_snoc, List.countP_cons]

@[simp] theorem skipCount_snoc_build (n : String) (tr : List Event) (f : Function) :
    skipCount n (tr ++ [.build f]) = skipCount n tr := by
  simp [skipCount, countP_snoc, List.countP_cons]

@[simp] theorem skipCount_snoc_langMsg (n : String) (tr : List Event) :
    skipCount n (tr ++ [.langMsg]) = skipCount n tr := by
  simp [skipCount, countP_snoc, List.countP_cons]

@[simp] theorem skipCount_snoc_done (n : String) (tr : List Event) (i : Nat) (m : String) :
    skipCount n (tr ++ [.done i m]) = skipCount n tr := by
  simp [skipCount, countP_snoc, List.countP_cons]

@[simp] theorem skipCount_snoc_workerDone (n : String) (tr : List Event) (i : Nat) :
    skipCount n (tr ++ [.workerDone i]) = skipCount n tr := by
  simp [skipCount, countP_snoc, List.countP_cons]

/-! ## Preservation of the invariant, transition by transition -/

theorem inv_init (d : Int) (fs : FunctionSet) : Inv d fs initState := by
  refine ⟨?_, ?_, ?_, ?_, ?_, ?_, ?_, ?_, ?_, ?_, ?_⟩ <;>
    simp [initState, pendCount, restList, doneCount, startCount, buildCount,
      skipCount]

theorem inv_main_spawn {d : Int} {fs : FunctionSet} {i : Nat}
    {ws : List WorkerState} {cnt : Nat} {cl : Bool} {tr : List Event}
    (h : Inv d fs ⟨.spawning i, ws, cnt, cl, tr⟩) (hlt : (i : Int) < d) :
    Inv d fs ⟨.spawning (i + 1), ws ++ [.spawned], cnt, cl, tr ++ [.spawn i]⟩ := by
  obtain ⟨hlen, hle, hcl, htr⟩ := h.spawnPhase i rfl
  dsimp only at hlen hcl htr
  refine ⟨?_, ?_, ?_, ?_, ?_, ?_, ?_, ?_, ?_, ?_, ?_⟩
  · intro j hj
    dsimp only at hj
    simp only [MainState.spawning.injEq] at hj
    subst hj
    refine ⟨by simp [hlen], by omega, hcl, ?_⟩
    dsimp only
    rw [htr, List.range_succ]
    simp
  · intro hne
    exact absurd rfl (hne (i + 1))
  · have hwg := h.wgEq
    dsimp only at hwg ⊢
    rw [countP_snoc, hwg]
    simp [isActive]
  · intro hr
    dsimp only at hr
    simp at hr
  · intro e he
    exact h.pendMem e he
  · intro n
    have hl := h.ledgerTotal n
    dsimp only at hl ⊢
    simp only [pendCount, doneCount_snoc_spawn, countP_snoc, holdsN,
      ite_false_bool] at hl ⊢
    omega
  · intro n
    have hl := h.ledgerStart n
    dsimp only at hl ⊢
    simp only [pendCount, startCount_snoc_spawn, countP_snoc, gotN,
      ite_false_bool] at hl ⊢
    omega
  · intro n
    have hl := h.ledgerBuild n
    dsimp only at hl ⊢
    simp only [pendCount, buildCount_snoc_spawn, countP_snoc, preBuildN,
      ite_false_bool] at hl ⊢
    omega
  · intro n
    have hl := h.ledgerSkip n
    dsimp only at hl ⊢
    simp only [pendCount, skipCount_snoc_spawn] at hl ⊢
    omega
  · intro n hn
    dsimp only at hn
    simp only [List.mem_append, List.mem_singleton] at hn
    rcases hn with hn | hn
    · exact h.skipProv n hn
    · cases hn
  · refine ⟨[], ?_, by simp⟩
    dsimp only
    rw [htr]
    simp [hlen, List.range_succ]

theorem inv_main_spawn_done {d : Int} {fs : FunctionSet} {i : Nat}
    {ws : List WorkerState} {cnt : Nat} {cl : Bool} {tr : List Event}
    (h : Inv d fs ⟨.spawning i, ws, cnt, cl, tr⟩) (hge : ¬ (i : Int) < d) :
    Inv d fs ⟨.producing fs, ws, cnt, cl, tr⟩ := by
  obtain ⟨hlen, hle, hcl, htr⟩ := h.spawnPhase i rfl
  dsimp only at hlen hcl htr
  have hlen' : ws.length = d.toNat := by omega
  refine ⟨?_, ?_, h.wgEq, ?_, ?_, ?_, ?_, ?_, ?_, h.skipProv, ?_⟩
  · intro j hj
    dsimp only at hj
    simp at hj
  · intro _
    exact hlen'
  · intro hr
    dsimp only at hr
    simp at hr
  · intro e he
    exact he
  · intro n
    have hl := h.ledgerTotal n
    dsimp only at hl ⊢
    simp only [pendCount] at hl ⊢
    omega
  · intro n
    have hl := h.ledgerStart n
    dsimp only at hl ⊢
    simp only [pendCount] at hl ⊢
    omega
  · intro n
    have hl := h.ledgerBuild n
    dsimp only at hl ⊢
    simp only [pendCount] at hl ⊢
    omega
  · intro n
    have hl := h.ledgerSkip n
    dsimp only at hl ⊢
    simp only [pendCount] at hl ⊢
    omega
  · exact ⟨[], by dsimp only; rw [htr]; simp [hlen], by simp⟩

theorem inv_main_close {d : Int} {fs : FunctionSet}
    {ws : List WorkerState} {cnt : Nat} {cl : Bool} {tr : List Event}
    (h : Inv d fs ⟨.producing [], ws, cnt, cl, tr⟩) :
    Inv d fs ⟨.waiting, ws, cnt, true, tr⟩ := by
  refine ⟨?_, ?_, h.wgEq, ?_, ?_, ?_, ?_, ?_, ?_, h.skipProv, ?_⟩
  · intro j hj
    dsimp only at hj
    simp at hj
  · intro _
    have := h.postLen (by intro i hi; dsimp only at hi; simp at hi)
    exact this
  · intro hr
    dsimp only at hr
    simp at hr
  · intro e he
    simp [restList] at he
  · intro n
    have hl := h.ledgerTotal n
    dsimp only at hl ⊢
    simp only [pendCount, List.countP_nil] at hl ⊢
    omega
  · intro n
    have hl := h.ledgerStart n
    dsimp only at hl ⊢
    simp only [pendCount, List.countP_nil] at hl ⊢
    omega
  · intro n
    have hl := h.ledgerBuild n
    dsimp only at hl ⊢
    simp only [pendCount, List.countP_nil] at hl ⊢
    omega
  · intro n
    have hl := h.ledgerSkip n
    dsimp only at hl ⊢
    simp only [pendCount, List.countP_nil] at hl ⊢
    omega
  · exact h.traceSpawn

theorem inv_main_skip {d : Int} {fs : FunctionSet} {k : String} {f : Function}
    {rest : FunctionSet} {ws : List WorkerState} {cnt : Nat} {cl : Bool}
    {tr : List Event}
    (h : Inv d fs ⟨.producing ((k, f) :: rest), ws, cnt, cl, tr⟩)
    (hskip : f.skipBuild = true) :
    Inv d fs ⟨.producing rest, ws, cnt, cl, tr ++ [.skip f.name]⟩ := by
  refine ⟨?_, ?_, h.wgEq, ?_, ?_, ?_, ?_, ?_, ?_, ?_, ?_⟩
  · intro j hj
    dsimp only at hj
    simp at hj
  · intro _
    exact h.postLen (by intro i hi; dsimp only at hi; simp at hi)
  · intro hr
    dsimp only at hr
    simp at hr
  · intro e he
    dsimp only [restList] at he ⊢
    exact h.pendMem e (by simp [restList, he])
  · intro n
    have hl := h.ledgerTotal n
    dsimp only at hl ⊢
    simp only [pendCount, List.countP_cons, keyTok, hskip, Bool.not_true,
      Bool.false_and, ite_false_bool, doneCount_snoc_skip] at hl ⊢
    omega
  · intro n
    have hl := h.ledgerStart n
    dsimp only at hl ⊢
    simp only [pendCount, List.countP_cons, keyTok, hskip, Bool.not_true,
      Bool.false_and, ite_false_bool, startCount_snoc_skip] at hl ⊢
    omega
  · intro n
    have hl := h.ledgerBuild n
    dsimp only at hl ⊢
    simp only [pendCount, List.countP_cons, keyTokB, hskip, Bool.not_true,
      Bool.false_and, ite_false_bool, buildCount_snoc_skip] at hl ⊢
    omega
  · intro n
    have hl := h.ledgerSkip n
    dsimp only at hl ⊢
    simp only [pendCount, List.countP_cons, skipTok, hskip, Bool.true_and,
      skipCount_snoc_skip] at hl ⊢
    cases hb : f.name == n <;> simp only [hb, ite_false_bool, ite_true_bool] at hl ⊢ <;> omega
  · intro n hn
    dsimp only at hn
    simp only [List.mem_append, List.mem_singleton] at hn
    rcases hn with hn | hn
    · exact h.skipProv n hn
    · cases hn
      exact ⟨(k, f), h.pendMem (k, f) (by simp [restList]), hskip, rfl⟩
  · obtain ⟨r, hr, hnos⟩ := h.traceSpawn
    dsimp only at hr ⊢
    refine ⟨r ++ [.skip f.name], by rw [hr, List.append_assoc], ?_⟩
    intro e he
    simp only [List.mem_append, List.mem_singleton] at he
    rcases he with he | he
    · exact hnos e he
    · subst he; rfl

theorem inv_main_send {d : Int} {fs : FunctionSet} {k : String} {f : Function}
    {rest : FunctionSet} {ws : List WorkerState} {cnt : Nat} {cl : Bool}
    {tr : List Event}
    (h : Inv d fs ⟨.producing ((k, f) :: rest), ws, cnt, cl, tr⟩)
    (hskip : f.skipBuild = false) :
    Inv d fs ⟨.sending (setKeyName k f) rest, ws, cnt, cl, tr⟩ := by
  refine ⟨?_, ?_, h.wgEq, ?_, ?_, ?_, ?_, ?_, ?_, h.skipProv, ?_⟩
  · intro j hj
    dsimp only at hj
    simp at hj
  · intro _
    exact h.postLen (by intro i hi; dsimp only at hi; simp at hi)
  · intro hr
    dsimp only at hr
    simp at hr
  · intro e he
    dsimp only [restList] at he ⊢
    exact h.pendMem e (by simp [restList, he])
  · intro n
    have hl := h.ledgerTotal n
    dsimp only at hl ⊢
    simp only [pendCount, List.countP_cons, keyTok, slotN, setKeyName, hskip,
      Bool.not_false, Bool.true_and] at hl ⊢
    omega
  · intro n
    have hl := h.ledgerStart n
    dsimp only at hl ⊢
    simp only [pendCount, List.countP_cons, keyTok, slotN, setKeyName, hskip,
      Bool.not_false, Bool.true_and] at hl ⊢
    omega
  · intro n
    have hl := h.ledgerBuild n
    dsimp only at hl ⊢
    simp only [pendCount, List.countP_cons, keyTokB, slotBN, setKeyName, hskip,
      Bool.not_false, Bool.true_and] at hl ⊢
    omega
  · intro n
    have hl := h.ledgerSkip n
    dsimp only at hl ⊢
    simp only [pendCount, List.countP_cons, skipTok, hskip, Bool.false_and,
      ite_false_bool] at hl ⊢
    omega
  · exact h.traceSpawn

theorem holdsAny_of_holdsN {n : String} {w : WorkerState}
    (h : holdsN n w = true) : holdsAny w = true := by
  cases w <;> simp_all [holdsN, holdsAny]

theorem isActive_of_holdsAny {w : WorkerState}
    (h : holdsAny w = true) : isActive w = true := by
  cases w <;> simp_all [holdsAny, isActive]

theorem inv_main_return {d : Int} {fs : FunctionSet}
    {ws : List WorkerState} {cnt : Nat} {cl : Bool} {tr : List Event}
    (h : Inv d fs ⟨.waiting, ws, cnt, cl, tr⟩) (hcnt : cnt = 0) :
    Inv d fs ⟨.returned, ws, cnt, cl, tr⟩ := by
  refine ⟨?_, ?_, h.wgEq, ?_, ?_, ?_, ?_, ?_, ?_, h.skipProv, h.traceSpawn⟩
  · intro j hj
    dsimp only at hj
    simp at hj
  · intro _
    exact h.postLen (by intro i hi; dsimp only at hi; simp at hi)
  · intro _ w hw
    have hwg := h.wgEq
    dsimp only at hwg hw
    rw [hcnt] at hwg
    have hz := List.countP_eq_zero.mp hwg.symm w hw
    by_contra hc
    simp only [Bool.not_eq_false] at hc
    exact absurd (isActive_of_holdsAny hc) (by simp [hz])
  · intro e he
    simp [restList] at he
  · intro n
    have hl := h.ledgerTotal n
    dsimp only at hl ⊢
    simp only [pendCount] at hl ⊢
    omega
  · intro n
    have hl := h.ledgerStart n
    dsimp only at hl ⊢
    simp only [pendCount] at hl ⊢
    omega
  · intro n
    have hl := h.ledgerBuild n
    dsimp only at hl ⊢
    simp only [pendCount] at hl ⊢
    omega
  · intro n
    have hl := h.ledgerSkip n
    dsimp only at hl ⊢
    simp only [pendCount] at hl ⊢
    omega

theorem no_holder_spawning {d : Int} {fs : FunctionSet} {s : DispatchState}
    (h : Inv d fs s) {j : Nat} (hm : s.main = .spawning j) {i : Nat}
    {w : WorkerState} (hw : s.workers[i]? = some w) {n : String}
    (hn : holdsN n w = true) : False := by
  have h0 := held_zero_of_spawning h hm n
  have hpos := countP_pos_of_getElem? (holdsN n) hw hn
  omega

theorem no_holder_returned {d : Int} {fs : FunctionSet} {s : DispatchState}
    (h : Inv d fs s) (hm : s.main = .returned) {i : Nat} {w : WorkerState}
    (hw : s.workers[i]? = some w) (hh : holdsAny w = true) : False := by
  have := h.noWorkAtReturn hm w (List.getElem?_mem hw)
  simp [this] at hh

theorem inv_worker_add {d : Int} {fs : FunctionSet} {m : MainState}
    {ws : List WorkerState} {cnt : Nat} {cl : Bool} {tr : List Event} {i : Nat}
    (h : Inv d fs ⟨m, ws, cnt, cl, tr⟩) (hw : ws[i]? = some .spawned) :
    Inv d fs ⟨m, ws.set i .idle, cnt + 1, cl, tr⟩ := by
  refine ⟨?_, ?_, ?_, ?_, h.pendMem, ?_, ?_, ?_, ?_, h.skipProv, ?_⟩
  · intro j hj
    obtain ⟨hlen, hle, hcl, htr⟩ := h.spawnPhase j hj
    dsimp only at hlen hcl htr ⊢
    exact ⟨by simp [List.length_set, hlen], hle, hcl, htr⟩
  · intro hne
    have := h.postLen hne
    simp [List.length_set] at this ⊢
    exact this
  · have hwg := h.wgEq
    have hc := countP_set_add ws i _ .idle isActive hw
    dsimp only at hwg ⊢
    simp only [isActive, ite_false_bool, ite_true_bool, if_true, if_false] at hc
    omega
  · intro hr w' hw'
    dsimp only at hw'
    rcases List.mem_or_eq_of_mem_set hw' with hmem | rfl
    · exact h.noWorkAtReturn hr w' hmem
    · rfl
  · intro n
    have hl := h.ledgerTotal n
    have hc := countP_set_add ws i _ .idle (holdsN n) hw
    dsimp only at hl ⊢
    simp only [holdsN, ite_false_bool] at hc
    omega
  · intro n
    have hl := h.ledgerStart n
    have hc := countP_set_add ws i _ .idle (gotN n) hw
    dsimp only at hl ⊢
    simp only [gotN, ite_false_bool] at hc
    omega
  · intro n
    have hl := h.ledgerBuild n
    have hc := countP_set_add ws i _ .idle (preBuildN n) hw
    dsimp only at hl ⊢
    simp only [preBuildN, ite_false_bool] at hc
    omega
  · intro n
    have hl := h.ledgerSkip n
    dsimp only at hl ⊢
    exact hl
  · obtain ⟨r, hr, hnos⟩ := h.traceSpawn
    dsimp only at hr ⊢
    exact ⟨r, by simp only [List.length_set]; exact hr, hnos⟩

theorem inv_worker_rendezvous {d : Int} {fs : FunctionSet} {g : Function}
    {rest : FunctionSet} {ws : List WorkerState} {cnt : Nat} {cl : Bool}
    {tr : List Event} {i : Nat}
    (h : Inv d fs ⟨.sending g rest, ws, cnt, cl, tr⟩)
    (hw : ws[i]? = some .idle) :
    Inv d fs ⟨.producing rest, ws.set i (.gotWork g), cnt, cl,
      tr ++ [.handoff g.name]⟩ := by
  refine ⟨?_, ?_, ?_, ?_, ?_, ?_, ?_, ?_, ?_, ?_, ?_⟩
  · intro j hj
    dsimp only at hj
    simp at hj
  · intro _
    have := h.postLen (by intro j hj; dsimp only at hj; simp at hj)
    simp [List.length_set] at this ⊢
    exact this
  · have hwg := h.wgEq
    have hc := countP_set_add ws i _ (.gotWork g) isActive hw
    dsimp only at hwg ⊢
    simp only [isActive, ite_true_bool, if_true] at hc
    omega
  · intro hr
    dsimp only at hr
    simp at hr
  · intro e he
    dsimp only [restList] at he ⊢
    exact h.pendMem e he
  · intro n
    have hl := h.ledgerTotal n
    have hc := countP_set_add ws i _ (.gotWork g) (holdsN n) hw
    dsimp only at hl ⊢
    simp only [pendCount, holdsN, slotN, ite_false_bool,
      doneCount_snoc_handoff] at hl hc ⊢
    omega
  · intro n
    have hl := h.ledgerStart n
    have hc := countP_set_add ws i _ (.gotWork g) (gotN n) hw
    dsimp only at hl ⊢
    simp only [pendCount, gotN, slotN, ite_false_bool,
      startCount_snoc_handoff] at hl hc ⊢
    omega
  · intro n
    have hl := h.ledgerBuild n
    have hc := countP_set_add ws i _ (.gotWork g) (preBuildN n) hw
    dsimp only at hl ⊢
    simp only [pendCount, preBuildN, slotBN, ite_false_bool,
      buildCount_snoc_handoff] at hl hc ⊢
    omega
  · intro n
    have hl := h.ledgerSkip n
    dsimp only at hl ⊢
    simp only [pendCount, ite_false_bool, skipCount_snoc_handoff] at hl ⊢
    omega
  · intro n hn
    dsimp only at hn
    simp only [List.mem_append, List.mem_singleton] at hn
    rcases hn with hn | hn
    · exact h.skipProv n hn
    · cases hn
  · obtain ⟨r, hr, hnos⟩ := h.traceSpawn
    dsimp only at hr ⊢
    refine ⟨r ++ [.handoff g.name], ?_, ?_⟩
    · simp only [List.length_set]
      rw [hr, List.append_assoc]
    · intro e he
      simp only [List.mem_append, List.mem_singleton] at he
      rcases he with he | he
      · exact hnos e he
      · subst he; rfl

theorem inv_worker_exit {d : Int} {fs : FunctionSet} {m : MainState}
    {ws : List WorkerState} {cnt : Nat} {cl : Bool} {tr : List Event} {i : Nat}
    (h : Inv d fs ⟨m, ws, cnt, cl, tr⟩) (hw : ws[i]? = some .idle)
    (hcl : cl = true) :
    Inv d fs ⟨m, ws.set i .exited, cnt - 1, cl, tr ++ [.workerDone i]⟩ := by
  refine ⟨?_, ?_, ?_, ?_, h.pendMem, ?_, ?_, ?_, ?_, ?_, ?_⟩
  · intro j hj
    obtain ⟨_, _, hcf, _⟩ := h.spawnPhase j hj
    dsimp only at hcf
    rw [hcl] at hcf
    cases hcf
  · intro hne
    have := h.postLen hne
    simp [List.length_set] at this ⊢
    exact this
  · have hwg := h.wgEq
    have hc := countP_set_add ws i _ .exited isActive hw
    dsimp only at hwg ⊢
    simp only [isActive, ite_false_bool, ite_true_bool, if_true, if_false] at hc
    omega
  · intro hr w' hw'
    dsimp only at hw'
    rcases List.mem_or_eq_of_mem_set hw' with hmem | rfl
    · exact h.noWorkAtReturn hr w' hmem
    · rfl
  · intro n
    have hl := h.ledgerTotal n
    have hc := countP_set_add ws i _ .exited (holdsN n) hw
    dsimp only at hl ⊢
    simp only [holdsN, ite_false_bool, doneCount_snoc_workerDone] at hl hc ⊢
    omega
  · intro n
    have hl := h.ledgerStart n
    have hc := countP_set_add ws i _ .exited (gotN n) hw
    dsimp only at hl ⊢
    simp only [gotN, ite_false_bool, startCount_snoc_workerDone] at hl hc ⊢
    omega
  · intro n
    have hl := h.ledgerBuild n
    have hc := countP_set_add ws i _ .exited (preBuildN n) hw
    dsimp only at hl ⊢
    simp only [preBuildN, ite_false_bool, buildCount_snoc_workerDone] at hl hc ⊢
    omega
  · intro n
    have hl := h.ledgerSkip n
    dsimp only at hl ⊢
    simp only [skipCount_snoc_workerDone] at hl ⊢
    omega
  · intro n hn
    dsimp only at hn
    simp only [List.mem_append, List.mem_singleton] at hn
    rcases hn with hn | hn
    · exact h.skipProv n hn
    · cases hn
  · obtain ⟨r, hr, hnos⟩ := h.traceSpawn
    dsimp only at hr ⊢
    refine ⟨r ++ [.workerDone i], ?_, ?_⟩
    · simp only [List.length_set]
      rw [hr, List.append_assoc]
    · intro e he
      simp only [List.mem_append, List.mem_singleton] at he
      rcases he with he | he
      · exact hnos e he
      · subst he; rfl

theorem inv_worker_startmark {d : Int} {fs : FunctionSet} {m : MainState}
    {g : Function} {ws : List WorkerState} {cnt : Nat} {cl : Bool}
    {tr : List Event} {i : Nat}
    (h : Inv d fs ⟨m, ws, cnt, cl, tr⟩) (hw : ws[i]? = some (.gotWork g)) :
    Inv d fs ⟨m, ws.set i (.printedStart g), cnt, cl,
      tr ++ [.start i g.name]⟩ := by
  refine ⟨?_, ?_, ?_, ?_, h.pendMem, ?_, ?_, ?_, ?_, ?_, ?_⟩
  · intro j hj
    dsimp only at hj
    exact (no_holder_spawning h hj hw (n := g.name) (by simp [holdsN])).elim
  · intro hne
    have := h.postLen hne
    simp [List.length_set] at this ⊢
    exact this
  · have hwg := h.wgEq
    have hc := countP_set_add ws i _ (.printedStart g) isActive hw
    dsimp only at hwg ⊢
    simp only [isActive, ite_true_bool, if_true] at hc
    omega
  · intro hr
    dsimp only at hr
    exact (no_holder_returned h hr hw (by simp [holdsAny])).elim
  · intro n
    have hl := h.ledgerTotal n
    have hc := countP_set_add ws i _ (.printedStart g) (holdsN n) hw
    dsimp only at hl ⊢
    simp only [holdsN, doneCount_snoc_start] at hl hc ⊢
    omega
  · intro n
    have hl := h.ledgerStart n
    have hc := countP_set_add ws i _ (.printedStart g) (gotN n) hw
    dsimp only at hl ⊢
    simp only [gotN, ite_false_bool, startCount_snoc_start] at hl hc ⊢
    omega
  · intro n
    have hl := h.ledgerBuild n
    have hc := countP_set_add ws i _ (.printedStart g) (preBuildN n) hw
    dsimp only at hl ⊢
    simp only [preBuildN, buildCount_snoc_start] at hl hc ⊢
    omega
  · intro n
    have hl := h.ledgerSkip n
    dsimp only at hl ⊢
    simp only [skipCount_snoc_start] at hl ⊢
    omega
  · intro n hn
    dsimp only at hn
    simp only [List.mem_append, List.mem_singleton] at hn
    rcases hn with hn | hn
    · exact h.skipProv n hn
    · cases hn
  · obtain ⟨r, hr, hnos⟩ := h.traceSpawn
    dsimp only at hr ⊢
    refine ⟨r ++ [.start i g.name], ?_, ?_⟩
    · simp only [List.length_set]
      rw [hr, List.append_assoc]
    · intro e he
      simp only [List.mem_append, List.mem_singleton] at he
      rcases he with he | he
      · exact hnos e he
      · subst he; rfl

theorem inv_worker_build_lang {d : Int} {fs : FunctionSet} {m : MainState}
    {g : Function} {ws : List WorkerState} {cnt : Nat} {cl : Bool}
    {tr : List Event} {i : Nat}
    (h : Inv d fs ⟨m, ws, cnt, cl, tr⟩) (hw : ws[i]? = some (.printedStart g))
    (hlang : g.language = "") :
    Inv d fs ⟨m, ws.set i (.builtWork g), cnt, cl, tr ++ [.langMsg]⟩ := by
  have hbe : (g.language == "") = true := by simp [hlang]
  refine ⟨?_, ?_, ?_, ?_, h.pendMem, ?_, ?_, ?_, ?_, ?_, ?_⟩
  · intro j hj
    dsimp only at hj
    exact (no_holder_spawning h hj hw (n := g.name) (by simp [holdsN])).elim
  · intro hne
    have := h.postLen hne
    simp [List.length_set] at this ⊢
    exact this
  · have hwg := h.wgEq
    have hc := countP_set_add ws i _ (.builtWork g) isActive hw
    dsimp only at hwg ⊢
    simp only [isActive, ite_true_bool, if_true] at hc
    omega
  · intro hr
    dsimp only at hr
    exact (no_holder_returned h hr hw (by simp [holdsAny])).elim
  · intro n
    have hl := h.ledgerTotal n
    have hc := countP_set_add ws i _ (.builtWork g) (holdsN n) hw
    dsimp only at hl ⊢
    simp only [holdsN, doneCount_snoc_langMsg] at hl hc ⊢
    omega
  · intro n
    have hl := h.ledgerStart n
    have hc := countP_set_add ws i _ (.builtWork g) (gotN n) hw
    dsimp only at hl ⊢
    simp only [gotN, ite_false_bool, startCount_snoc_langMsg] at hl hc ⊢
    omega
  · intro n
    have hl := h.ledgerBuild n
    have hc := countP_set_add ws i _ (.builtWork g) (preBuildN n) hw
    dsimp only at hl ⊢
    simp only [preBuildN, hbe, Bool.not_true, Bool.and_false, ite_false_bool,
      buildCount_snoc_langMsg] at hl hc ⊢
    omega
  · intro n
    have hl := h.ledgerSkip n
    dsimp only at hl ⊢
    simp only [skipCount_snoc_langMsg] at hl ⊢
    omega
  · intro n hn
    dsimp only at hn
    simp only [List.mem_append, List.mem_singleton] at hn
    rcases hn with hn | hn
    · exact h.skipProv n hn
    · cases hn
  · obtain ⟨r, hr, hnos⟩ := h.traceSpawn
    dsimp only at hr ⊢
    refine ⟨r ++ [.langMsg], ?_, ?_⟩
    · simp only [List.length_set]
      rw [hr, List.append_assoc]
    · intro e he
      simp only [List.mem_append, List.mem_singleton] at he
      rcases he with he | he
      · exact hnos e he
      · subst he; rfl

theorem inv_worker_build_ok {d : Int} {fs : FunctionSet} {m : MainState}
    {g : Function} {ws : List WorkerState} {cnt : Nat} {cl : Bool}
    {tr : List Event} {i : Nat}
    (h : Inv d fs ⟨m, ws, cnt, cl, tr⟩) (hw : ws[i]? = some (.printedStart g))
    (hlang : ¬ g.language = "") :
    Inv d fs ⟨m, ws.set i (.builtWork g), cnt, cl, tr ++ [.build g]⟩ := by
  have hbe : (g.language == "") = false := by
    simp only [beq_eq_false_iff_ne, ne_eq]
    exact hlang
  refine ⟨?_, ?_, ?_, ?_, h.pendMem, ?_, ?_, ?_, ?_, ?_, ?_⟩
  · intro j hj
    dsimp only at hj
    exact (no_holder_spawning h hj hw (n := g.name) (by simp [holdsN])).elim
  · intro hne
    have := h.postLen hne
    simp [List.length_set] at this ⊢
    exact this
  · have hwg := h.wgEq
    have hc := countP_set_add ws i _ (.builtWork g) isActive hw
    dsimp only at hwg ⊢
    simp only [isActive, ite_true_bool, if_true] at hc
    omega
  · intro hr
    dsimp only at hr
    exact (no_holder_returned h hr hw (by simp [holdsAny])).elim
  · intro n
    have hl := h.ledgerTotal n
    have hc := countP_set_add ws i _ (.builtWork g) (holdsN n) hw
    dsimp only at hl ⊢
    simp only [holdsN, doneCount_snoc_build] at hl hc ⊢
    omega
  · intro n
    have hl := h.ledgerStart n
    have hc := countP_set_add ws i _ (.builtWork g) (gotN n) hw
    dsimp only at hl ⊢
    simp only [gotN, ite_false_bool, startCount_snoc_build] at hl hc ⊢
    omega
  · intro n
    have hl := h.ledgerBuild n
    have hc := countP_set_add ws i _ (.builtWork g) (preBuildN n) hw
    dsimp only at hl ⊢
    simp only [preBuildN, hbe, Bool.not_false, Bool.and_true, ite_false_bool,
      buildCount_snoc_build] at hl hc ⊢
    omega
  · intro n
    have hl := h.ledgerSkip n
    dsimp only at hl ⊢
    simp only [skipCount_snoc_build] at hl ⊢
    omega
  · intro n hn
    dsimp only at hn
    simp only [List.mem_append, List.mem_singleton] at hn
    rcases hn with hn | hn
    · exact h.skipProv n hn
    · cases hn
  · obtain ⟨r, hr, hnos⟩ := h.traceSpawn
    dsimp only at hr ⊢
    refine ⟨r ++ [.build g], ?_, ?_⟩
    · simp only [List.length_set]
      rw [hr, List.append_assoc]
    · intro e he
      simp only [List.mem_append, List.mem_singleton] at he
      rcases he with he | he
      · exact hnos e he
      · subst he; rfl

theorem inv_worker_donemark {d : Int} {fs : FunctionSet} {m : MainState}
    {g : Function} {ws : List WorkerState} {cnt : Nat} {cl : Bool}
    {tr : List Event} {i : Nat}
    (h : Inv d fs ⟨m, ws, cnt, cl, tr⟩) (hw : ws[i]? = some (.builtWork g)) :
    Inv d fs ⟨m, ws.set i .idle, cnt, cl, tr ++ [.done i g.name]⟩ := by
  refine ⟨?_, ?_, ?_, ?_, h.pendMem, ?_, ?_, ?_, ?_, ?_, ?_⟩
  · intro j hj
    dsimp only at hj
    exact (no_holder_spawning h hj hw (n := g.name) (by simp [holdsN])).elim
  · intro hne
    have := h.postLen hne
    simp [List.length_set] at this ⊢
    exact this
  · have hwg := h.wgEq
    have hc := countP_set_add ws i _ .idle isActive hw
    dsimp only at hwg ⊢
    simp only [isActive, ite_true_bool, if_true] at hc
    omega
  · intro hr
    dsimp only at hr
    exact (no_holder_returned h hr hw (by simp [holdsAny])).elim
  · intro n
    have hl := h.ledgerTotal n
    have hc := countP_set_add ws i _ .idle (holdsN n) hw
    dsimp only at hl ⊢
    simp only [holdsN, ite_false_bool, doneCount_snoc_done] at hl hc ⊢
    omega
  · intro n
    have hl := h.ledgerStart n
    have hc := countP_set_add ws i _ .idle (gotN n) hw
    dsimp only at hl ⊢
    simp only [gotN, ite_false_bool, startCount_snoc_done] at hl hc ⊢
    omega
  · intro n
    have hl := h.ledgerBuild n
    have hc := countP_set_add ws i _ .idle (preBuildN n) hw
    dsimp only at hl ⊢
    simp only [preBuildN, ite_false_bool, buildCount_snoc_done] at hl hc ⊢
    omega
  · intro n
    have hl := h.ledgerSkip n
    dsimp only at hl ⊢
    simp only [skipCount_snoc_done] at hl ⊢
    omega
  · intro n hn
    dsimp only at hn
    simp only [List.mem_append, List.mem_singleton] at hn
    rcases hn with hn | hn
    · exact h.skipProv n hn
    · cases hn
  · obtain ⟨r, hr, hnos⟩ := h.traceSpawn
    dsimp only at hr ⊢
    refine ⟨r ++ [.done i g.name], ?_, ?_⟩
    · simp only [List.length_set]
      rw [hr, List.append_assoc]
    · intro e he
      simp only [List.mem_append, List.mem_singleton] at he
      rcases he with he | he
      · exact hnos e he
      · subst he; rfl

/-- The invariant is preserved by every scheduling choice. -/
theorem inv_step {d : Int} {fs : FunctionSet} {s : DispatchState}
    (h : Inv d fs s) (c : Choice) : Inv d fs (step d fs s c) := by
  obtain ⟨m, ws, cnt, cl, tr⟩ := s
  cases c with
  | mainC =>
      cases m with
      | spawning i =>
          by_cases hlt : (i : Int) < d
          · have hred : step d fs ⟨.spawning i, ws, cnt, cl, tr⟩ .mainC =
                ⟨.spawning (i + 1), ws ++ [.spawned], cnt, cl,
                  tr ++ [.spawn i]⟩ := by
              simp only [step, mainStep, if_pos hlt]
            rw [hred]
            exact inv_main_spawn h hlt
          · have hred : step d fs ⟨.spawning i, ws, cnt, cl, tr⟩ .mainC =
                ⟨.producing fs, ws, cnt, cl, tr⟩ := by
              simp only [step, mainStep, if_neg hlt]
            rw [hred]
            exact inv_main_spawn_done h hlt
      | producing rest =>
          cases rest with
          | nil => exact inv_main_close h
          | cons e rest' =>
              obtain ⟨k, f⟩ := e
              cases hskip : f.skipBuild with
              | true =>
                  have hred : step d fs
                      ⟨.producing ((k, f) :: rest'), ws, cnt, cl, tr⟩ .mainC =
                      ⟨.producing rest', ws, cnt, cl,
                        tr ++ [.skip f.name]⟩ := by
                    simp only [step, mainStep, hskip, ite_true_bool, if_true]
                  rw [hred]
                  exact inv_main_skip h hskip
              | false =>
                  have hred : step d fs
                      ⟨.producing ((k, f) :: rest'), ws, cnt, cl, tr⟩ .mainC =
                      ⟨.sending (setKeyName k f) rest', ws, cnt, cl, tr⟩ := by
                    simp only [step, mainStep, hskip, ite_false_bool, if_false]
                  rw [hred]
                  exact inv_main_send h hskip
      | sending g rest => exact h
      | waiting =>
          by_cases hcnt : cnt = 0
          · have hred : step d fs ⟨.waiting, ws, cnt, cl, tr⟩ .mainC =
                ⟨.returned, ws, cnt, cl, tr⟩ := by
              simp only [step, mainStep, if_pos hcnt]
            rw [hred]
            exact inv_main_return h hcnt
          · have hred : step d fs ⟨.waiting, ws, cnt, cl, tr⟩ .mainC =
                ⟨.waiting, ws, cnt, cl, tr⟩ := by
              simp only [step, mainStep, if_neg hcnt]
            rw [hred]
            exact h
      | returned => exact h
  | workerC i =>
      cases hw : ws[i]? with
      | none =>
          have hred : step d fs ⟨m, ws, cnt, cl, tr⟩ (.workerC i) =
              ⟨m, ws, cnt, cl, tr⟩ := by
            simp only [step, workerStep, hw]
          rw [hred]
          exact h
      | some w =>
          cases w with
          | spawned =>
              have hred : step d fs ⟨m, ws, cnt, cl, tr⟩ (.workerC i) =
                  ⟨m, ws.set i .idle, cnt + 1, cl, tr⟩ := by
                simp only [step, workerStep, hw]
              rw [hred]
              exact inv_worker_add h hw
          | idle =>
              cases m with
              | sending g rest =>
                  have hred : step d fs
                      ⟨.sending g rest, ws, cnt, cl, tr⟩ (.workerC i) =
                      ⟨.producing rest, ws.set i (.gotWork g), cnt, cl,
                        tr ++ [.handoff g.name]⟩ := by
                    simp only [step, workerStep, hw]
                  rw [hred]
                  exact inv_worker_rendezvous h hw
              | spawning j =>
                  cases cl with
                  | true =>
                      have hred : step d fs
                          ⟨.spawning j, ws, cnt, true, tr⟩ (.workerC i) =
                          ⟨.spawning j, ws.set i .exited, cnt - 1, true,
                            tr ++ [.workerDone i]⟩ := by
                        simp only [step, workerStep, hw, ite_true_bool, if_true]
                      rw [hred]
                      exact inv_worker_exit h hw rfl
                  | false =>
                      have hred : step d fs
                          ⟨.spawning j, ws, cnt, false, tr⟩ (.workerC i) =
                          ⟨.spawning j, ws, cnt, false, tr⟩ := by
                        simp only [step, workerStep, hw, ite_false_bool, if_false]
                      rw [hred]
                      exact h
              | producing rest =>
                  cases cl with
                  | true =>
                      have hred : step d fs
                          ⟨.producing rest, ws, cnt, true, tr⟩ (.workerC i) =
                          ⟨.producing rest, ws.set i .exited, cnt - 1, true,
                            tr ++ [.workerDone i]⟩ := by
                        simp only [step, workerStep, hw, ite_true_bool, if_true]
                      rw [hred]
                      exact inv_worker_exit h hw rfl
                  | false =>
                      have hred : step d fs
                          ⟨.producing rest, ws, cnt, false, tr⟩ (.workerC i) =
                          ⟨.producing rest, ws, cnt, false, tr⟩ := by
                        simp only [step, workerStep, hw, ite_false_bool, if_false]
                      rw [hred]
                      exact h
              | waiting =>
                  cases cl with
                  | true =>
                      have hred : step d fs
                          ⟨.waiting, ws, cnt, true, tr⟩ (.workerC i) =
                          ⟨.waiting, ws.set i .exited, cnt - 1, true,
                            tr ++ [.workerDone i]⟩ := by
                        simp only [step, workerStep, hw, ite_true_bool, if_true]
                      rw [hred]
                      exact inv_worker_exit h hw rfl
                  | false =>
                      have hred : step d fs
                          ⟨.waiting, ws, cnt, false, tr⟩ (.workerC i) =
                          ⟨.waiting, ws, cnt, false, tr⟩ := by
                        simp only [step, workerStep, hw, ite_false_bool, if_false]
                      rw [hred]
                      exact h
              | returned =>
                  cases cl with
                  | true =>
                      have hred : step d fs
                          ⟨.returned, ws, cnt, true, tr⟩ (.workerC i) =
                          ⟨.returned, ws.set i .exited, cnt - 1, true,
                            tr ++ [.workerDone i]⟩ := by
                        simp only [step, workerStep, hw, ite_true_bool, if_true]
                      rw [hred]
                      exact inv_worker_exit h hw rfl
                  | false =>
                      have hred : step d fs
                          ⟨.returned, ws, cnt, false, tr⟩ (.workerC i) =
                          ⟨.returned, ws, cnt, false, tr⟩ := by
                        simp only [step, workerStep, hw, ite_false_bool, if_false]
                      rw [hred]
                      exact h
          | gotWork g =>
              have hred : step d fs ⟨m, ws, cnt, cl, tr⟩ (.workerC i) =
                  ⟨m, ws.set i (.printedStart g), cnt, cl,
                    tr ++ [.start i g.name]⟩ := by
                simp only [step, workerStep, hw]
              rw [hred]
              exact inv_worker_startmark h hw
          | printedStart g =>
              by_cases hlang : g.language = ""
              · have hred : step d fs ⟨m, ws, cnt, cl, tr⟩ (.workerC i) =
                    ⟨m, ws.set i (.builtWork g), cnt, cl,
                      tr ++ [.langMsg]⟩ := by
                  simp only [step, workerStep, hw, if_pos hlang]
                rw [hred]
                exact inv_worker_build_lang h hw hlang
              · have hred : step d fs ⟨m, ws, cnt, cl, tr⟩ (.workerC i) =
                    ⟨m, ws.set i (.builtWork g), cnt, cl,
                      tr ++ [.build g]⟩ := by
                  simp only [step, workerStep, hw, if_neg hlang]
                rw [hred]
                exact inv_worker_build_ok h hw hlang
          | builtWork g =>
              have hred : step d fs ⟨m, ws, cnt, cl, tr⟩ (.workerC i) =
                  ⟨m, ws.set i .idle, cnt, cl, tr ++ [.done i g.name]⟩ := by
                simp only [step, workerStep, hw]
              rw [hred]
              exact inv_worker_donemark h hw
          | exited =>
              have hred : step d fs ⟨m, ws, cnt, cl, tr⟩ (.workerC i) =
                  ⟨m, ws, cnt, cl, tr⟩ := by
                simp only [step, workerStep, hw]
              rw [hred]
              exact h

/-- Every state reachable in any interleaving of `build(fs, d)` satisfies
the invariant. -/
theorem inv_run (fs : FunctionSet) (d : Int) (sched : List Choice) :
    Inv d fs (run fs d sched) := by
  suffices hgen : ∀ s, Inv d fs s → Inv d fs (sched.foldl (step d fs) s) by
    exact hgen initState (inv_init d fs)
  induction sched with
  | nil => intro s hs; exact hs
  | cons c cs ih =>
      intro s hs
      exact ih (step d fs s c) (inv_step hs c)

/-! ## Consequences of the ledgers for a set with unique keys -/

/-- In a set whose keys are unique (Go map keys), a predicate that forces
its key to be `k` counts exactly the entry `(k, f)`. -/
theorem countP_nodupKeys {fs : FunctionSet} {k : String} {f : Function}
    (hnd : (fs.map Prod.fst).Nodup) (hmem : (k, f) ∈ fs)
    (p : String × Function → Bool) (hp : ∀ e, p e = true → e.1 = k) :
    fs.countP p = if p (k, f) then 1 else 0 := by
  induction fs with
  | nil => cases hmem
  | cons e fs' ih =>
      rw [List.countP_cons]
      simp only [List.map_cons, List.nodup_cons] at hnd
      obtain ⟨hkn, hnd'⟩ := hnd
      rcases List.mem_cons.mp hmem with heq | hmem'
      · subst heq
        have hz : fs'.countP p = 0 := by
          rw [List.countP_eq_zero]
          intro a ha hpa
          exact hkn ((hp a hpa) ▸ List.mem_map.mpr ⟨a, ha, rfl⟩)
        rw [hz]
        omega
      · have hz : p e = false := by
          by_contra hpe
          simp only [Bool.not_eq_false] at hpe
          refine hkn ?_
          rw [hp e hpe]
          exact List.mem_map.mpr ⟨(k, f), hmem', rfl⟩
        rw [hz, ih hnd' hmem']
        simp only [ite_false_bool, Nat.add_zero]

theorem holdsAny_of_gotN {n : String} {w : WorkerState}
    (h : gotN n w = true) : holdsAny w = true := by
  cases w <;> simp_all [gotN, holdsAny]

theorem holdsAny_of_preBuildN {n : String} {w : WorkerState}
    (h : preBuildN n w = true) : holdsAny w = true := by
  cases w <;> simp_all [preBuildN, holdsAny]

/-- After the dispatch has returned, no worker holds anything, so every
holding-style worker count is zero. -/
theorem workerCount_zero_at_return {d : Int} {fs : FunctionSet}
    {s : DispatchState} (h : Inv d fs s) (hr : s.main = .returned)
    (p : WorkerState → Bool) (hp : ∀ w, p w = true → holdsAny w = true) :
    s.workers.countP p = 0 := by
  rw [List.countP_eq_zero]
  intro w hw hpw
  have hno := h.noWorkAtReturn hr w hw
  rw [hp w hpw] at hno
  cases hno

/-! ## The single-function branch of `runBuild` (build.go lines 107-123)

When no YAML functions were parsed, `runBuild` validates `--image`,
`--handler` and `--name` (returning an error for each empty one, in that
order) and otherwise calls `builder.BuildImage(image, handler,
functionName, language, ...)`; when functions were parsed it calls
`build(&services, parallel, shrinkwrap)` with the user-supplied
`--parallel` value unvalidated. -/

/-- Arguments of a `builder.BuildImage` call made directly by `runBuild`. -/
structure BuildCall where
  image : String
  handler : String
  functionName : String
  language : String
deriving DecidableEq, Repr

/-- Outcome of `runBuild` (after YAML parsing and template pulling have
succeeded): an error return, a dispatch `build(services, parallel)`, or a
direct single-function `builder.BuildImage` call. -/
inductive RunBuildResult where
  | error (msg : String)
  | dispatched (fs : FunctionSet) (depth : Int)
  | single (b : BuildCall)
deriving DecidableEq, Repr

def runBuild (services : FunctionSet) (image handler functionName language : String)
    (parallel : Int) : RunBuildResult :=
  if services.length > 0 then
    .dispatched services parallel
  else if image.length = 0 then
    .error "please provide a valid --image name for your Docker image"
  else if handler.length = 0 then
    .error "please provide the full path to your function's handler"
  else if functionName.length = 0 then
    .error "please provide the deployed --name of your function"
  else
    .single { image := image, handler := handler,
              functionName := functionName, language := language }

/-! ## `parseMap` (deploy.go lines 242-259) and `preRunBuild`

`parseMap` maps each entry through
`s := strings.SplitN(strings.TrimSpace(envvar), "=", 2)` and then reads
`s[0]` and `s[1]` before any check; when the trimmed entry contains no
`=`, `SplitN` returns a one-element slice and `s[1]` panics with an
index-out-of-range.  We model that panic as an explicit outcome. -/

inductive ParseOutcome where
  | panicked
  | err (msg : String)
  | ok (m : List (String × String))
deriving DecidableEq, Repr

/-- `strings.TrimSpace` on the characters of a flag entry: leading and
trailing whitespace removed (Go trims Unicode space; the entries at issue
here are ASCII). -/
def trimSpace (cs : List Char) : List Char :=
  ((cs.dropWhile Char.isWhitespace).reverse.dropWhile Char.isWhitespace).reverse

/-- `strings.SplitN(s, "=", 2)` on the characters of `s`: the part before
the first `=` and, when one exists, the part after it. -/
def splitFirstEq : List Char → List Char × Option (List Char)
  | [] => ([], none)
  | c :: rest =>
      if c = '=' then ([], some rest)
      else
        let p := splitFirstEq rest
        (c :: p.1, p.2)

/-- `result[name] = value` on the accumulated Go map, modelled as an
association list updated in place. -/
def mapPut (m : List (String × String)) (k v : String) : List (String × String) :=
  if m.any (fun e => e.1 == k) then
    m.map (fun e => if e.1 == k then (k, v) else e)
  else
    m ++ [(k, v)]

/-- The loop of `parseMap`.  For each entry: split the trimmed entry at its
first `=`; reading `s[1]` panics when there is none; otherwise an empty
name or value yields the corresponding error (with the original entry in
the message), and a well-formed entry is stored. -/
def parseMapLoop (keyName : String) (acc : List (String × String)) :
    List String → ParseOutcome
  | [] => .ok acc
  | envvar :: rest =>
      match splitFirstEq (trimSpace envvar.toList) with
      | (_, none) => .panicked
      | (nameCs, some valueCs) =>
          if nameCs.length = 0 then
            .err ("Empty " ++ keyName ++ " name: [" ++ envvar ++ "]")
          else if valueCs.length = 0 then
            .err ("Empty " ++ keyName ++ " value: [" ++ envvar ++ "]")
          else
            parseMapLoop keyName
              (mapPut acc (String.mk nameCs) (String.mk valueCs)) rest

/-- `parseMap(envvars, keyName)` of deploy.go. -/
def parseMap (envvars : List String) (keyName : String) : ParseOutcome :=
  parseMapLoop keyName [] envvars

/-- Outcome of `preRunBuild` (build.go lines 78-87): it calls
`parseMap(buildArgs, "build-arg")`, wraps an error return in
`failed to parse build-arg: ...`, and stores the map on success.  A panic
inside `parseMap` is not an error return: it propagates and aborts the
process. -/
inductive PreRunOutcome where
  | panicked
  | error (msg : String)
  | ok (m : List (String × String))
deriving DecidableEq, Repr

def preRunBuild (buildArgs : List String) : PreRunOutcome :=
  match parseMap buildArgs "build-arg" with
  | .panicked => .panicked
  | .err m => .error ("failed to parse build-arg: " ++ m)
  | .ok m => .ok m

/-! ## Concrete fixtures

A three-function set exercising all producer branches (a buildable
function, an empty-language function, a skipped function with an empty
record name), and a complete two-worker schedule in which worker 1 is
never scheduled before the dispatch returns. -/

def recA : Function :=
  { name := "recA", image := "imgA", handler := "hA", language := "go",
    skipBuild := false }

def recB : Function :=
  { name := "recB", image := "imgB", handler := "hB", language := "",
    skipBuild := false }

def recC : Function :=
  { name := "", image := "imgC", handler := "hC", language := "go",
    skipBuild := true }

def fsW : FunctionSet := [("fnA", recA), ("fnB", recB), ("fnC", recC)]

def schedW : List Choice :=
  [.mainC, .mainC, .mainC, .workerC 0,
   .mainC, .workerC 0, .workerC 0, .workerC 0, .workerC 0,
   .mainC, .workerC 0, .workerC 0, .workerC 0, .workerC 0,
   .mainC, .mainC, .workerC 0, .mainC]

/-! ## Claims -/

/-- C1: for every FunctionSet with unique keys and every concurrency depth
`parallel >= 1`, each descriptor with `SkipBuild = false` and a non-empty
Language is passed to `builder.BuildImage` exactly once in any completed
dispatch: in every interleaving its build count never exceeds one, at most
one worker holds it at any moment (so it is never built twice or
concurrently), and when `build` has returned its build count is exactly
one (no function is missed). -/
theorem c1_every_valid_function_built_exactly_once
    (fs : FunctionSet) (d : Int) (sched : List Choice) (k : String)
    (f : Function) (hd : 1 ≤ d) (hnd : (fs.map Prod.fst).Nodup)
    (hmem : (k, f) ∈ fs) (hskip : f.skipBuild = false)
    (hlang : f.language ≠ "") :
    buildCount k (run fs d sched).trace ≤ 1 ∧
    heldCount k (run fs d sched) ≤ 1 ∧
    ((run fs d sched).main = .returned →
      buildCount k (run fs d sched).trace = 1) := by
  have hinv := inv_run fs d sched
  have hbe : (f.language == "") = false := by
    simp only [beq_eq_false_iff_ne, ne_eq]
    exact hlang
  have horigB : fs.countP (keyTokB k) = 1 := by
    rw [countP_nodupKeys hnd hmem]
    · simp [keyTokB, hskip, hbe]
    · intro e he
      simp only [keyTokB, Bool.and_eq_true, beq_iff_eq] at he
      exact he.1.2
  have horigT : fs.countP (keyTok k) = 1 := by
    rw [countP_nodupKeys hnd hmem]
    · simp [keyTok, hskip]
    · intro e he
      simp only [keyTok, Bool.and_eq_true, beq_iff_eq] at he
      exact he.2
  have hB := hinv.ledgerBuild k
  have hT := hinv.ledgerTotal k
  refine ⟨by omega, ?_, ?_⟩
  · unfold heldCount
    omega
  · intro hret
    rw [hret] at hB
    simp only [pendCount] at hB
    have hwork := workerCount_zero_at_return hinv hret (preBuildN k)
      (fun w hw => holdsAny_of_preBuildN hw)
    omega

/-- C1 witness: in the concrete dispatch of `fsW` with `parallel = 2`
under `schedW`, function `fnA` is built exactly once. -/
theorem c1_witness :
    (1 ≤ (2 : Int) ∧ (fsW.map Prod.fst).Nodup ∧ ("fnA", recA) ∈ fsW ∧
      recA.skipBuild = false ∧ recA.language ≠ "" ∧
      (run fsW 2 schedW).main = .returned) ∧
    buildCount "fnA" (run fsW 2 schedW).trace = 1 :=
  ⟨by decide,
   (c1_every_valid_function_built_exactly_once fsW 2 schedW "fnA" recA
      (by decide) (by decide) (by decide) (by decide) (by decide)).2.2
      (by decide)⟩

/-- C2 (exhibit of the WaitGroup misuse): because `wg.Add(1)` runs inside
each spawned goroutine rather than before the `go` statement, there is an
interleaving of `build(fsW, 2)` in which the call returns while worker 1
has not yet exited (indeed not yet entered) its receive loop: under
`schedW` the dispatch returns with worker 1 still unstarted and no
`[1] worker done.` line ever printed.  This contradicts the specified
behavior that `build` does not return until every spawned worker has
observed queue closure and exited. -/
theorem c2_returns_before_worker_exit :
    (run fsW 2 schedW).main = .returned ∧
    (run fsW 2 schedW).workers[1]? = some .spawned ∧
    Event.workerDone 1 ∉ (run fsW 2 schedW).trace ∧
    Event.spawn 1 ∈ (run fsW 2 schedW).trace := by
  decide

/-- C5: a descriptor with `SkipBuild = true` in a set with unique keys is
never enqueued (no worker ever holds it) and never reaches the Build
Executor, for any depth and any interleaving; and in any completed
dispatch a "Skipping build of" notice carrying its record Name has been
printed. -/
theorem c5_skipped_never_built
    (fs : FunctionSet) (d : Int) (sched : List Choice) (k : String)
    (f : Function) (hnd : (fs.map Prod.fst).Nodup) (hmem : (k, f) ∈ fs)
    (hskip : f.skipBuild = true) :
    buildCount k (run fs d sched).trace = 0 ∧
    heldCount k (run fs d sched) = 0 ∧
    ((run fs d sched).main = .returned →
      0 < skipCount f.name (run fs d sched).trace) := by
  have hinv := inv_run fs d sched
  have horigB : fs.countP (keyTokB k) = 0 := by
    rw [countP_nodupKeys hnd hmem]
    · simp [keyTokB, hskip]
    · intro e he
      simp only [keyTokB, Bool.and_eq_true, beq_iff_eq] at he
      exact he.1.2
  have horigT : fs.countP (keyTok k) = 0 := by
    rw [countP_nodupKeys hnd hmem]
    · simp [keyTok, hskip]
    · intro e he
      simp only [keyTok, Bool.and_eq_true, beq_iff_eq] at he
      exact he.2
  have hB := hinv.ledgerBuild k
  have hT := hinv.ledgerTotal k
  refine ⟨by omega, ?_, ?_⟩
  · unfold heldCount
    omega
  · intro hret
    have hS := hinv.ledgerSkip f.name
    rw [hret] at hS
    simp only [pendCount] at hS
    have horigS : 0 < fs.countP (skipTok f.name) :=
      List.countP_pos_iff.mpr ⟨(k, f), hmem, by simp [skipTok, hskip]⟩
    omega

/-- C5 witness: in the concrete dispatch of `fsW` under `schedW`, the
skipped entry `fnC` is never built and its (empty) record name appears in
a skipping notice. -/
theorem c5_witness :
    ((fsW.map Prod.fst).Nodup ∧ ("fnC", recC) ∈ fsW ∧
      recC.skipBuild = true ∧ (run fsW 2 schedW).main = .returned) ∧
    buildCount "fnC" (run fsW 2 schedW).trace = 0 ∧
    0 < skipCount recC.name (run fsW 2 schedW).trace :=
  ⟨by decide,
   (c5_skipped_never_built fsW 2 schedW "fnC" recC (by decide) (by decide)
      (by decide)).1,
   (c5_skipped_never_built fsW 2 schedW "fnC" recC (by decide) (by decide)
      (by decide)).2.2 (by decide)⟩

/-- C6: an enqueued descriptor with an empty Language field (unique keys)
never reaches the Build Executor, in any interleaving; yet in any
completed dispatch both its start marker and its done marker have been
printed with its name exactly once. -/
theorem c6_empty_language_no_build_but_markers
    (fs : FunctionSet) (d : Int) (sched : List Choice) (k : String)
    (f : Function) (hnd : (fs.map Prod.fst).Nodup) (hmem : (k, f) ∈ fs)
    (hskip : f.skipBuild = false) (hlang : f.language = "") :
    buildCount k (run fs d sched).trace = 0 ∧
    ((run fs d sched).main = .returned →
      startCount k (run fs d sched).trace = 1 ∧
      doneCount k (run fs d sched).trace = 1) := by
  have hinv := inv_run fs d sched
  have hbe : (f.language == "") = true := by simp [hlang]
  have horigB : fs.countP (keyTokB k) = 0 := by
    rw [countP_nodupKeys hnd hmem]
    · simp [keyTokB, hbe]
    · intro e he
      simp only [keyTokB, Bool.and_eq_true, beq_iff_eq] at he
      exact he.1.2
  have horigT : fs.countP (keyTok k) = 1 := by
    rw [countP_nodupKeys hnd hmem]
    · simp [keyTok, hskip]
    · intro e he
      simp only [keyTok, Bool.and_eq_true, beq_iff_eq] at he
      exact he.2
  have hB := hinv.ledgerBuild k
  refine ⟨by omega, ?_⟩
  intro hret
  have hT := hinv.ledgerTotal k
  have hSt := hinv.ledgerStart k
  rw [hret] at hT hSt
  simp only [pendCount] at hT hSt
  have hw1 := workerCount_zero_at_return hinv hret (holdsN k)
    (fun w hw => holdsAny_of_holdsN hw)
  have hw2 := workerCount_zero_at_return hinv hret (gotN k)
    (fun w hw => holdsAny_of_gotN hw)
  omega

/-- C6 witness: in the concrete dispatch of `fsW` under `schedW`, the
empty-language function `fnB` is never built but gets a start and a done
marker. -/
theorem c6_witness :
    ((fsW.map Prod.fst).Nodup ∧ ("fnB", recB) ∈ fsW ∧
      recB.skipBuild = false ∧ recB.language = "" ∧
      (run fsW 2 schedW).main = .returned) ∧
    buildCount "fnB" (run fsW 2 schedW).trace = 0 ∧
    startCount "fnB" (run fsW 2 schedW).trace = 1 ∧
    doneCount "fnB" (run fsW 2 schedW).trace = 1 :=
  ⟨by decide,
   (c6_empty_language_no_build_but_markers fsW 2 schedW "fnB" recB
      (by decide) (by decide) (by decide) (by decide)).1,
   ((c6_empty_language_no_build_but_markers fsW 2 schedW "fnB" recB
      (by decide) (by decide) (by decide) (by decide)).2 (by decide)).1,
   ((c6_empty_language_no_build_but_markers fsW 2 schedW "fnB" recB
      (by decide) (by decide) (by decide) (by decide)).2 (by decide)).2⟩

/-- C7: with `parallel >= 1`, in every interleaving the trace begins with
the spawn events of all existing workers, whose identities are exactly
`0 .. count-1` (`List.range`), before any other event (in particular
before any channel handoff); the worker count never exceeds `parallel`,
and once the producer has left its spawn loop the count is exactly
`parallel`. -/
theorem c7_spawn_all_workers_first
    (fs : FunctionSet) (d : Int) (sched : List Choice) (hd : 1 ≤ d) :
    (∃ rest, (run fs d sched).trace =
        (List.range (run fs d sched).workers.length).map Event.spawn ++ rest ∧
        ∀ e ∈ rest, isSpawnEv e = false) ∧
    (run fs d sched).workers.length ≤ d.toNat ∧
    ((∀ i, (run fs d sched).main ≠ .spawning i) →
      (run fs d sched).workers.length = d.toNat) := by
  have hinv := inv_run fs d sched
  refine ⟨hinv.traceSpawn, ?_, hinv.postLen⟩
  cases hm : (run fs d sched).main with
  | spawning i =>
      obtain ⟨hlen, hle, _, _⟩ := hinv.spawnPhase i hm
      omega
  | producing rest =>
      rw [hinv.postLen (by intro i hi; rw [hm] at hi; cases hi)]
  | sending g rest =>
      rw [hinv.postLen (by intro i hi; rw [hm] at hi; cases hi)]
  | waiting =>
      rw [hinv.postLen (by intro i hi; rw [hm] at hi; cases hi)]
  | returned =>
      rw [hinv.postLen (by intro i hi; rw [hm] at hi; cases hi)]

/-- C7 witness: the concrete dispatch of `fsW` with `parallel = 2` spawns
exactly the two workers `0` and `1` before anything else. -/
theorem c7_witness :
    (1 ≤ (2 : Int) ∧ (∀ i, (run fsW 2 schedW).main ≠ .spawning i)) ∧
    (run fsW 2 schedW).workers.length = (2 : Int).toNat :=
  ⟨⟨by decide,
    fun i hi => MainState.noConfusion
      ((show (run fsW 2 schedW).main = MainState.returned by decide) ▸ hi)⟩,
   (c7_spawn_all_workers_first fsW 2 schedW (by decide)).2.2
     (fun i hi => MainState.noConfusion
       ((show (run fsW 2 schedW).main = MainState.returned by decide) ▸ hi))⟩

/-- C9: every "Skipping build of" notice carries the Name field of the
manifest record (the producer prints before the `function.Name = k`
assignment, which happens only on the non-skip branch), never the map
key; and in any completed dispatch each skipped entry produced such a
notice with its record name.  In particular a skipped entry whose record
has an empty Name is reported with an empty name. -/
theorem c9_skip_notice_uses_record_name
    (fs : FunctionSet) (d : Int) (sched : List Choice) :
    (∀ n, Event.skip n ∈ (run fs d sched).trace →
      ∃ e ∈ fs, e.2.skipBuild = true ∧ e.2.name = n) ∧
    (∀ k f, (k, f) ∈ fs → f.skipBuild = true →
      (run fs d sched).main = .returned →
      Event.skip f.name ∈ (run fs d sched).trace) := by
  have hinv := inv_run fs d sched
  refine ⟨hinv.skipProv, ?_⟩
  intro k f hmem hskip hret
  have hS := hinv.ledgerSkip f.name
  rw [hret] at hS
  simp only [pendCount] at hS
  have horigS : 0 < fs.countP (skipTok f.name) :=
    List.countP_pos_iff.mpr ⟨(k, f), hmem, by simp [skipTok, hskip]⟩
  have hpos : 0 < skipCount f.name (run fs d sched).trace := by omega
  unfold skipCount at hpos
  obtain ⟨e, he, hpe⟩ := List.countP_pos_iff.mp hpos
  cases e <;> simp only [beq_iff_eq] at hpe
  case skip m =>
    rw [hpe] at he
    exact he
  all_goals cases hpe

/-- C9 witness: in the dispatch of `fsW` under `schedW` the skipped entry
under key `fnC`, whose record name is empty, is reported as
`Skipping build of: .` with the empty name and never with the key. -/
theorem c9_witness :
    (("fnC", recC) ∈ fsW ∧ recC.skipBuild = true ∧
      (run fsW 2 schedW).main = .returned) ∧
    Event.skip "" ∈ (run fsW 2 schedW).trace ∧
    Event.skip "fnC" ∉ (run fsW 2 schedW).trace :=
  ⟨by decide,
   (c9_skip_notice_uses_record_name fsW 2 schedW).2 "fnC" recC (by decide)
      (by decide) (by decide),
   by decide⟩

/-! ## C3: single-function mode validation -/

theorem string_length_eq_zero_iff (s : String) : s.length = 0 ↔ s = "" := by
  constructor
  · intro h
    cases s with
    | mk data =>
        simp [String.length] at h
        simp [h]
  · intro h
    subst h
    rfl

/-- C3 counterexample: the claim says a missing `--lang` is reported as an
error before any build in single-function mode, but `runBuild` checks only
image, handler and name: with those three present and the language empty
it returns no error and invokes `builder.BuildImage` with the empty
language. -/
theorem c3_counterexample :
    runBuild [] "imgX" "hX" "fnX" "" 1 =
      .single ⟨"imgX", "hX", "fnX", ""⟩ ∧
    ∀ msg, runBuild [] "imgX" "hX" "fnX" "" 1 ≠ .error msg := by
  refine ⟨rfl, ?_⟩
  intro msg h
  have hx : runBuild [] "imgX" "hX" "fnX" "" 1 =
      RunBuildResult.single ⟨"imgX", "hX", "fnX", ""⟩ := rfl
  rw [hx] at h
  cases h

/-- C3 (amended): in single-function mode (no YAML functions parsed) the
configuration errors among missing image, missing handler and missing name
are each reported as an error before any build, and `builder.BuildImage`
is not invoked; the language, however, is not validated: when the other
three fields are non-empty, the build proceeds whatever the language,
including the empty one. -/
theorem c3_single_mode_checks (image handler functionName language : String)
    (parallel : Int) :
    ((image = "" ∨ handler = "" ∨ functionName = "") →
      (∃ msg, runBuild [] image handler functionName language parallel =
        .error msg) ∧
      ∀ b, runBuild [] image handler functionName language parallel ≠
        .single b) ∧
    (image ≠ "" → handler ≠ "" → functionName ≠ "" →
      runBuild [] image handler functionName language parallel =
        .single ⟨image, handler, functionName, language⟩) := by
  have hnil : ¬ (([] : FunctionSet).length > 0) := by simp
  constructor
  · intro hcase
    by_cases hi : image = ""
    · have hred : runBuild [] image handler functionName language parallel =
          .error "please provide a valid --image name for your Docker image" := by
        unfold runBuild
        rw [if_neg hnil,
          if_pos ((string_length_eq_zero_iff image).mpr hi)]
      exact ⟨⟨_, hred⟩, fun b hb => by rw [hred] at hb; cases hb⟩
    · have hi' : ¬ image.length = 0 := fun hz =>
        hi ((string_length_eq_zero_iff image).mp hz)
      by_cases hh : handler = ""
      · have hred : runBuild [] image handler functionName language parallel =
            .error "please provide the full path to your function's handler" := by
          unfold runBuild
          rw [if_neg hnil, if_neg hi',
            if_pos ((string_length_eq_zero_iff handler).mpr hh)]
        exact ⟨⟨_, hred⟩, fun b hb => by rw [hred] at hb; cases hb⟩
      · have hh' : ¬ handler.length = 0 := fun hz =>
          hh ((string_length_eq_zero_iff handler).mp hz)
        have hf : functionName = "" := by tauto
        have hred : runBuild [] image handler functionName language parallel =
            .error "please provide the deployed --name of your function" := by
          unfold runBuild
          rw [if_neg hnil, if_neg hi', if_neg hh',
            if_pos ((string_length_eq_zero_iff functionName).mpr hf)]
        exact ⟨⟨_, hred⟩, fun b hb => by rw [hred] at hb; cases hb⟩
  · intro hi hh hf
    unfold runBuild
    rw [if_neg hnil,
      if_neg (fun hz => hi ((string_length_eq_zero_iff image).mp hz)),
      if_neg (fun hz => hh ((string_length_eq_zero_iff handler).mp hz)),
      if_neg (fun hz => hf ((string_length_eq_zero_iff functionName).mp hz))]

/-- C3 witness: a concrete error case (missing handler) and a concrete
proceeding case (all three fields present, empty language). -/
theorem c3_witness :
    (("imgY" : String) ≠ "" ∧ ("" : String) = "" ∧
      (∃ msg, runBuild [] "imgY" "" "fnY" "go" 4 = .error msg)) ∧
    (runBuild [] "imgY" "hY" "fnY" "" 4 =
      .single ⟨"imgY", "hY", "fnY", ""⟩) :=
  ⟨⟨by decide, rfl,
    ((c3_single_mode_checks "imgY" "" "fnY" "go" 4).1
      (Or.inr (Or.inl rfl))).1⟩,
   (c3_single_mode_checks "imgY" "hY" "fnY" "" 4).2
     (by decide) (by decide) (by decide)⟩

/-! ## C10: parseMap error vs panic -/

theorem parseMapLoop_err_has_eq (keyName : String) :
    ∀ (l : List String) (acc : List (String × String)) (msg : String),
      parseMapLoop keyName acc l = .err msg →
      ∃ x ∈ l, ∃ a b, splitFirstEq (trimSpace x.toList) = (a, some b) ∧
        (a = [] ∨ b = []) := by
  intro l
  induction l with
  | nil =>
      intro acc msg h
      simp only [parseMapLoop] at h
      cases h
  | cons x xs ih =>
      intro acc msg h
      rcases hs : splitFirstEq (trimSpace x.toList) with ⟨a, o⟩
      cases o with
      | none =>
          simp only [parseMapLoop, hs] at h
          cases h
      | some b =>
          simp only [parseMapLoop, hs] at h
          by_cases ha : a.length = 0
          · exact ⟨x, by simp, a, b, hs, Or.inl (List.length_eq_zero.mp ha)⟩
          · by_cases hb : b.length = 0
            · exact ⟨x, by simp, a, b, hs,
                Or.inr (List.length_eq_zero.mp hb)⟩
            · rw [if_neg ha, if_neg hb] at h
              obtain ⟨y, hy, w⟩ := ih _ msg h
              exact ⟨y, List.mem_cons_of_mem x hy, w⟩

/-- C10: `parseMap` returns an error only when some entry does contain a
`=` and the part before it or after it (after trimming) is empty; an
entry with no `=` at all does not produce an error but panics with an
index-out-of-range when the loop reads `s[1]`, and the panic propagates
through `preRunBuild`, aborting the process instead of reporting a parse
failure. -/
theorem c10_parsemap_error_vs_panic (l : List String) (e : String) :
    (∀ msg, parseMap l "build-arg" = .err msg →
      ∃ x ∈ l, ∃ a b, splitFirstEq (trimSpace x.toList) = (a, some b) ∧
        (a = [] ∨ b = [])) ∧
    ((splitFirstEq (trimSpace e.toList)).2 = none →
      parseMap [e] "build-arg" = .panicked ∧
      preRunBuild [e] = .panicked) := by
  constructor
  · intro msg h
    exact parseMapLoop_err_has_eq "build-arg" l [] msg h
  · intro hnone
    have hs : splitFirstEq (trimSpace e.toList) =
        ((splitFirstEq (trimSpace e.toList)).1, none) := by
      rw [← hnone]
    have hp : parseMap [e] "build-arg" = .panicked := by
      unfold parseMap parseMapLoop
      rw [hs]
    refine ⟨hp, ?_⟩
    unfold preRunBuild
    rw [hp]

/-- C10 witness: the entry `=x` (empty key around its `=`) is the source
of a reported error, while the entry `abc` (no `=` at all) panics both in
`parseMap` and through `preRunBuild`. -/
theorem c10_witness :
    (∃ x ∈ (["=x"] : List String), ∃ a b,
        splitFirstEq (trimSpace x.toList) = (a, some b) ∧
        (a = [] ∨ b = [])) ∧
    parseMap ["abc"] "build-arg" = .panicked ∧
    preRunBuild ["abc"] = .panicked :=
  ⟨(c10_parsemap_error_vs_panic ["=x"] "abc").1 "Empty build-arg name: [=x]"
      (by decide),
   ((c10_parsemap_error_vs_panic ["=x"] "abc").2 (by decide)).1,
   ((c10_parsemap_error_vs_panic ["=x"] "abc").2 (by decide)).2⟩

/-! ## C8: non-positive queue depth -/

/-- States of a dispatch with `queueDepth <= 0` and at least one
non-skipped function: no workers exist and the producer is before, at, or
blocked in its first unmatched send. -/
def InvC8 (fs : FunctionSet) (s : DispatchState) : Prop :=
  s.workers = [] ∧
  (s.main = .spawning 0 ∨
   (∃ rest, s.main = .producing rest ∧ ∃ e ∈ rest, e.2.skipBuild = false) ∨
   (∃ g rest, s.main = .sending g rest))

theorem invC8_step {d : Int} {fs : FunctionSet} (hd : d ≤ 0)
    (hnz : ∃ e ∈ fs, e.2.skipBuild = false)
    {s : DispatchState} (h : InvC8 fs s) (c : Choice) :
    InvC8 fs (step d fs s c) := by
  obtain ⟨hw, hm⟩ := h
  cases c with
  | workerC i =>
      have hnone : s.workers[i]? = none := by
        rw [hw]
        simp
      have hred : step d fs s (.workerC i) = s := by
        simp only [step, workerStep, hnone]
      rw [hred]
      exact ⟨hw, hm⟩
  | mainC =>
      rcases hm with hm | ⟨rest, hm, e0, he0, hns⟩ | ⟨g, rest, hm⟩
      · obtain ⟨m, ws, cnt, cl, tr⟩ := s
        dsimp only at hm hw
        subst hm hw
        have hred : step d fs ⟨.spawning 0, [], cnt, cl, tr⟩ .mainC =
            ⟨.producing fs, [], cnt, cl, tr⟩ := by
          simp only [step, mainStep, Nat.cast_zero, if_neg (by omega : ¬ (0 : Int) < d)]
        rw [hred]
        exact ⟨rfl, Or.inr (Or.inl ⟨fs, rfl, hnz⟩)⟩
      · obtain ⟨m, ws, cnt, cl, tr⟩ := s
        dsimp only at hm hw
        subst hm hw
        cases rest with
        | nil => cases he0
        | cons e1 rest' =>
            obtain ⟨k, f⟩ := e1
            cases hskip : f.skipBuild with
            | true =>
                have hred : step d fs
                    ⟨.producing ((k, f) :: rest'), [], cnt, cl, tr⟩ .mainC =
                    ⟨.producing rest', [], cnt, cl,
                      tr ++ [.skip f.name]⟩ := by
                  simp only [step, mainStep, hskip, ite_true_bool, if_true]
                rw [hred]
                refine ⟨rfl, Or.inr (Or.inl ⟨rest', rfl, e0, ?_, hns⟩)⟩
                rcases List.mem_cons.mp he0 with heq | hmem
                · exfalso
                  rw [heq] at hns
                  rw [hskip] at hns
                  cases hns
                · exact hmem
            | false =>
                have hred : step d fs
                    ⟨.producing ((k, f) :: rest'), [], cnt, cl, tr⟩ .mainC =
                    ⟨.sending (setKeyName k f) rest', [], cnt, cl, tr⟩ := by
                  simp only [step, mainStep, hskip, ite_false_bool, if_false]
                rw [hred]
                exact ⟨rfl, Or.inr (Or.inr ⟨_, _, rfl⟩)⟩
      · obtain ⟨m, ws, cnt, cl, tr⟩ := s
        dsimp only at hm hw
        subst hm hw
        exact ⟨rfl, Or.inr (Or.inr ⟨g, rest, rfl⟩)⟩

/-- C8: if `build` is called with `queueDepth <= 0` (reachable because
`runBuild` passes the user-supplied `--parallel` value unvalidated) on a
set with at least one non-skipped function, then in every interleaving no
worker is ever spawned and the producer never gets past its blocked send:
the dispatch never closes the channel, never reaches `wg.Wait`, and never
returns. -/
theorem c8_nonpositive_parallel_never_returns (fs : FunctionSet) (d : Int)
    (sched : List Choice) (hd : d ≤ 0)
    (hnz : ∃ e ∈ fs, e.2.skipBuild = false) :
    runBuild fs "" "" "" "" d = .dispatched fs d ∧
    (run fs d sched).workers = [] ∧
    (run fs d sched).main ≠ .returned ∧
    (run fs d sched).main ≠ .waiting := by
  have hinv : InvC8 fs (run fs d sched) := by
    have hbase : InvC8 fs initState := ⟨rfl, Or.inl rfl⟩
    suffices hgen : ∀ s, InvC8 fs s → InvC8 fs (sched.foldl (step d fs) s) by
      exact hgen initState hbase
    induction sched with
    | nil => intro s hs; exact hs
    | cons c cs ih =>
        intro s hs
        exact ih (step d fs s c) (invC8_step hd hnz hs c)
  obtain ⟨hw, hm⟩ := hinv
  refine ⟨?_, hw, ?_, ?_⟩
  · unfold runBuild
    rw [if_pos ?_]
    obtain ⟨e, he, _⟩ := hnz
    exact List.length_pos.mpr (List.ne_nil_of_mem he)
  · rcases hm with hm | ⟨rest, hm, _⟩ | ⟨g, rest, hm⟩ <;> rw [hm] <;>
      intro hc <;> cases hc
  · rcases hm with hm | ⟨rest, hm, _⟩ | ⟨g, rest, hm⟩ <;> rw [hm] <;>
      intro hc <;> cases hc

/-- C8 witness: with `--parallel 0` and the non-skipped functions of
`fsW`, no schedule ever returns. -/
theorem c8_witness :
    ((0 : Int) ≤ 0 ∧ (∃ e ∈ fsW, e.2.skipBuild = false)) ∧
    (run fsW 0 [.mainC, .mainC, .workerC 0, .mainC]).workers = [] ∧
    (run fsW 0 [.mainC, .mainC, .workerC 0, .mainC]).main ≠ .returned :=
  ⟨⟨by decide, by decide⟩,
   (c8_nonpositive_parallel_never_returns fsW 0
      [.mainC, .mainC, .workerC 0, .mainC] (by decide) (by decide)).2.1,
   (c8_nonpositive_parallel_never_returns fsW 0
      [.mainC, .mainC, .workerC 0, .mainC] (by decide) (by decide)).2.2.1⟩

/-! ## C4: `parallel = 1` is the sequential loop -/

/-- Events a worker prints or executes (start marker, Build Executor call
or empty-language message, done marker); skip notices, spawns, channel
handoffs and worker-exit lines are not build events. -/
def isWorkEv : Event → Bool
  | .start _ _ => true
  | .build _ => true
  | .langMsg => true
  | .done _ _ => true
  | _ => false

/-- The build events of a trace, in order. -/
def workEvents (tr : List Event) : List Event := tr.filter isWorkEv

/-- The build events of one function handled by worker 0: start marker,
then the Build Executor call (or the empty-language message), then the
done marker. -/
def expectedTriple (g : Function) : List Event :=
  [.start 0 g.name] ++ (if g.language = "" then [.langMsg] else [.build g]) ++
    [.done 0 g.name]

/-- Modelled from the spec (refinement reference for C4): the fully
sequential build loop, which walks the FunctionSet in iteration order and,
for each non-skipped entry, completes its start marker, Build Executor
call and done marker before the next entry begins. -/
def seqBuildLoop : FunctionSet → List Event
  | [] => []
  | (k, f) :: rest =>
      if f.skipBuild then seqBuildLoop rest
      else expectedTriple (setKeyName k f) ++ seqBuildLoop rest

/-- The build events the single worker still owes for the function it
currently holds. -/
def restEvents : WorkerState → List Event
  | .gotWork g => expectedTriple g
  | .printedStart g =>
      (if g.language = "" then [.langMsg] else [.build g]) ++
        [.done 0 g.name]
  | .builtWork g => [.done 0 g.name]
  | _ => []

theorem workEvents_append (tr l : List Event) :
    workEvents (tr ++ l) = workEvents tr ++ workEvents l := by
  unfold workEvents
  exact List.filter_append tr l

/-- Accounting of the single worker against the sequential reference:
trace so far, current worker obligation, and obligations still on the
producer side always concatenate to the sequential loop. -/
def Ctx1 (fs : FunctionSet) (tr : List Event) (w : WorkerState)
    (sfx : List Event) : Prop :=
  workEvents tr ++ restEvents w ++ sfx = seqBuildLoop fs

theorem ctx1_start {fs : FunctionSet} {tr : List Event} {g : Function}
    {sfx : List Event} (h : Ctx1 fs tr (.gotWork g) sfx) :
    Ctx1 fs (tr ++ [.start 0 g.name]) (.printedStart g) sfx := by
  unfold Ctx1 at h ⊢
  rw [workEvents_append]
  simp only [restEvents, expectedTriple] at h ⊢
  simp only [workEvents, List.filter, isWorkEv, List.append_assoc,
    List.cons_append, List.singleton_append, List.nil_append] at h ⊢
  exact h

theorem ctx1_buildstep {fs : FunctionSet} {tr : List Event} {g : Function}
    {sfx : List Event} (h : Ctx1 fs tr (.printedStart g) sfx) :
    Ctx1 fs (tr ++ (if g.language = "" then [.langMsg] else [.build g]))
      (.builtWork g) sfx := by
  unfold Ctx1 at h ⊢
  rw [workEvents_append]
  by_cases hlang : g.language = ""
  · simp only [restEvents, hlang, if_pos rfl] at h ⊢
    simp only [workEvents, List.filter, isWorkEv, List.append_assoc,
      List.cons_append, List.singleton_append, List.nil_append] at h ⊢
    exact h
  · simp only [restEvents, if_neg hlang] at h ⊢
    simp only [workEvents, List.filter, isWorkEv, List.append_assoc,
      List.cons_append, List.singleton_append, List.nil_append] at h ⊢
    exact h

theorem ctx1_donemark {fs : FunctionSet} {tr : List Event} {g : Function}
    {sfx : List Event} (h : Ctx1 fs tr (.builtWork g) sfx) :
    Ctx1 fs (tr ++ [.done 0 g.name]) .idle sfx := by
  unfold Ctx1 at h ⊢
  rw [workEvents_append]
  simp only [restEvents] at h ⊢
  simp only [workEvents, List.filter, isWorkEv, List.append_assoc,
    List.cons_append, List.singleton_append, List.nil_append] at h ⊢
  exact h

theorem ctx1_nonwork {fs : FunctionSet} {tr : List Event}
    {w w' : WorkerState} {sfx : List Event} (h : Ctx1 fs tr w sfx)
    (hw : restEvents w' = restEvents w) (e : Event)
    (he : isWorkEv e = false) : Ctx1 fs (tr ++ [e]) w' sfx := by
  unfold Ctx1 at h ⊢
  rw [workEvents_append, hw]
  have hz : workEvents [e] = [] := by
    simp [workEvents, List.filter, he]
  rw [hz, List.append_nil]
  exact h

theorem ctx1_rendezvous {fs : FunctionSet} {tr : List Event} {g : Function}
    {sfx : List Event} (h : Ctx1 fs tr .idle (expectedTriple g ++ sfx)) :
    Ctx1 fs (tr ++ [.handoff g.name]) (.gotWork g) sfx := by
  unfold Ctx1 at h ⊢
  rw [workEvents_append]
  have hz : workEvents [.handoff g.name] = [] := rfl
  rw [hz, List.append_nil]
  simp only [restEvents, List.nil_append, List.append_nil,
    List.append_assoc] at h ⊢
  exact h

def activeBit (w : WorkerState) : Nat := if isActive w then 1 else 0

/-- Invariant of a `parallel = 1` dispatch: the single worker and the
producer together always account for exactly the sequential reference
trace `seqBuildLoop fs`, in order. -/
def Inv1 (fs : FunctionSet) (s : DispatchState) : Prop :=
  match s.main with
  | .spawning i =>
      s.closed = false ∧ workEvents s.trace = [] ∧
      ((i = 0 ∧ s.workers = [] ∧ s.wg = 0) ∨
       (i = 1 ∧ ∃ w, s.workers = [w] ∧
          (w = WorkerState.spawned ∨ w = WorkerState.idle) ∧
          s.wg = activeBit w))
  | .producing rest =>
      ∃ w, s.workers = [w] ∧ s.closed = false ∧ s.wg = activeBit w ∧
        Ctx1 fs s.trace w (seqBuildLoop rest)
  | .sending g rest =>
      ∃ w, s.workers = [w] ∧ s.closed = false ∧ s.wg = activeBit w ∧
        Ctx1 fs s.trace w (expectedTriple g ++ seqBuildLoop rest)
  | .waiting =>
      ∃ w, s.workers = [w] ∧ s.closed = true ∧ s.wg = activeBit w ∧
        Ctx1 fs s.trace w []
  | .returned =>
      ∃ w, s.workers = [w] ∧ s.closed = true ∧ restEvents w = [] ∧
        workEvents s.trace = seqBuildLoop fs

theorem singleton_getElem {α : Type} {w0 w : α} {i : Nat}
    (h : ([w0] : List α)[i]? = some w) : i = 0 ∧ w = w0 := by
  cases i with
  | zero =>
      simp only [List.getElem?_cons_zero, Option.some.injEq] at h
      exact ⟨rfl, h.symm⟩
  | succ j =>
      simp only [List.getElem?_cons_succ, List.getElem?_nil] at h
      cases h

theorem workEvents_snoc_nonwork (tr : List Event) (e : Event)
    (he : isWorkEv e = false) : workEvents (tr ++ [e]) = workEvents tr := by
  rw [workEvents_append]
  have hz : workEvents [e] = [] := by
    simp [workEvents, List.filter, he]
  rw [hz, List.append_nil]

theorem ctx1_swap {fs : FunctionSet} {tr : List Event} {w w' : WorkerState}
    {sfx : List Event} (h : Ctx1 fs tr w sfx)
    (he : restEvents w' = restEvents w) : Ctx1 fs tr w' sfx := by
  unfold Ctx1 at h ⊢
  rw [he]
  exact h

/-- One scheduling step preserves the `parallel = 1` invariant. -/
theorem inv1_step {fs : FunctionSet} {s : DispatchState}
    (h : Inv1 fs s) (c : Choice) : Inv1 fs (step 1 fs s c) := by
  obtain ⟨m, ws, cnt, cl, tr⟩ := s
  cases c with
  | mainC =>
      cases m with
      | spawning i =>
          obtain ⟨hcl, hwe, hdisj⟩ := h
          dsimp only at hcl hwe hdisj
          by_cases hlt : (i : Int) < 1
          · have hi0 : i = 0 := by omega
            subst hi0
            rcases hdisj with ⟨_, hws, hcnt⟩ | ⟨hj, _⟩
            · have hred : step 1 fs ⟨.spawning 0, ws, cnt, cl, tr⟩ .mainC =
                  ⟨.spawning 1, ws ++ [WorkerState.spawned], cnt, cl,
                    tr ++ [Event.spawn 0]⟩ := by
                simp only [step, mainStep, if_pos hlt]
              rw [hred]
              refine ⟨hcl, ?_, Or.inr ⟨rfl, WorkerState.spawned, ?_, Or.inl rfl, ?_⟩⟩
              · rw [workEvents_snoc_nonwork tr (Event.spawn 0) rfl, hwe]
              · rw [hws, List.nil_append]
              · rw [hcnt]
                rfl
            · exact absurd hj (by omega)
          · rcases hdisj with ⟨hj, _, _⟩ | ⟨hj, w, hws, hwsi, hcnt⟩
            · exfalso
              subst hj
              exact hlt (by omega)
            · have hred : step 1 fs ⟨.spawning i, ws, cnt, cl, tr⟩ .mainC =
                  ⟨.producing fs, ws, cnt, cl, tr⟩ := by
                simp only [step, mainStep, if_neg hlt]
              rw [hred]
              refine ⟨w, hws, hcl, hcnt, ?_⟩
              unfold Ctx1
              rw [hwe]
              rcases hwsi with rfl | rfl <;>
                simp only [restEvents, List.nil_append]
      | producing rest =>
          obtain ⟨w, hws, hcl, hcnt, hctx⟩ := h
          dsimp only at hws hcl hcnt hctx
          cases rest with
          | nil =>
              have hred : step 1 fs ⟨.producing [], ws, cnt, cl, tr⟩ .mainC =
                  ⟨.waiting, ws, cnt, true, tr⟩ := by
                simp only [step, mainStep]
              rw [hred]
              exact ⟨w, hws, rfl, hcnt, hctx⟩
          | cons e rest' =>
              obtain ⟨k, f⟩ := e
              cases hskip : f.skipBuild with
              | true =>
                  have hred : step 1 fs
                      ⟨.producing ((k, f) :: rest'), ws, cnt, cl, tr⟩ .mainC =
                      ⟨.producing rest', ws, cnt, cl,
                        tr ++ [Event.skip f.name]⟩ := by
                    simp only [step, mainStep, hskip, ite_true_bool, if_true]
                  rw [hred]
                  refine ⟨w, hws, hcl, hcnt, ?_⟩
                  simp only [seqBuildLoop, hskip, ite_true_bool, if_true] at hctx
                  exact ctx1_nonwork hctx rfl (Event.skip f.name) rfl
              | false =>
                  have hred : step 1 fs
                      ⟨.producing ((k, f) :: rest'), ws, cnt, cl, tr⟩ .mainC =
                      ⟨.sending (setKeyName k f) rest', ws, cnt, cl, tr⟩ := by
                    simp only [step, mainStep, hskip, ite_false_bool, if_false]
                  rw [hred]
                  refine ⟨w, hws, hcl, hcnt, ?_⟩
                  simp only [seqBuildLoop, hskip, ite_false_bool, if_false] at hctx
                  exact hctx
      | sending g rest =>
          have hred : step 1 fs ⟨.sending g rest, ws, cnt, cl, tr⟩ .mainC =
              ⟨.sending g rest, ws, cnt, cl, tr⟩ := by
            simp only [step, mainStep]
          rw [hred]
          exact h
      | waiting =>
          obtain ⟨w, hws, hcl, hcnt, hctx⟩ := h
          dsimp only at hws hcl hcnt hctx
          by_cases hz : cnt = 0
          · have hred : step 1 fs ⟨.waiting, ws, cnt, cl, tr⟩ .mainC =
                ⟨.returned, ws, cnt, cl, tr⟩ := by
              simp only [step, mainStep, if_pos hz]
            rw [hred]
            have hA : activeBit w = 0 := by omega
            have hrw : restEvents w = [] := by
              cases w <;> simp_all [activeBit, isActive, restEvents]
            refine ⟨w, hws, hcl, hrw, ?_⟩
            unfold Ctx1 at hctx
            rw [hrw, List.append_nil, List.append_nil] at hctx
            exact hctx
          · have hred : step 1 fs ⟨.waiting, ws, cnt, cl, tr⟩ .mainC =
                ⟨.waiting, ws, cnt, cl, tr⟩ := by
              simp only [step, mainStep, if_neg hz]
            rw [hred]
            exact ⟨w, hws, hcl, hcnt, hctx⟩
      | returned =>
          have hred : step 1 fs ⟨.returned, ws, cnt, cl, tr⟩ .mainC =
              ⟨.returned, ws, cnt, cl, tr⟩ := by
            simp only [step, mainStep]
          rw [hred]
          exact h
  | workerC i =>
      cases hw : ws[i]? with
      | none =>
          have hred : step 1 fs ⟨m, ws, cnt, cl, tr⟩ (.workerC i) =
              ⟨m, ws, cnt, cl, tr⟩ := by
            simp only [step, workerStep, hw]
          rw [hred]
          exact h
      | some w0 =>
          cases m with
          | spawning j =>
              obtain ⟨hcl, hwe, hdisj⟩ := h
              dsimp only at hcl hwe hdisj
              rcases hdisj with ⟨hj, hws, hcnt⟩ | ⟨hj, w, hws, hwsi, hcnt⟩
              · rw [hws] at hw
                simp at hw
              · have hw2 := hw
                rw [hws] at hw2
                obtain ⟨hi0, hw0⟩ := singleton_getElem hw2
                subst hi0
                subst hw0
                subst hcl
                rcases hwsi with rfl | rfl
                · have hred : step 1 fs
                      ⟨.spawning j, ws, cnt, false, tr⟩ (.workerC 0) =
                      ⟨.spawning j, ws.set 0 .idle, cnt + 1, false, tr⟩ := by
                    simp only [step, workerStep, hw]
                  rw [hred]
                  refine ⟨rfl, hwe,
                    Or.inr ⟨hj, WorkerState.idle, ?_, Or.inr rfl, ?_⟩⟩
                  · rw [hws]
                    rfl
                  · rw [hcnt]
                    rfl
                · have hred : step 1 fs
                      ⟨.spawning j, ws, cnt, false, tr⟩ (.workerC 0) =
                      ⟨.spawning j, ws, cnt, false, tr⟩ := by
                    simp only [step, workerStep, hw, ite_false_bool, if_false]
                  rw [hred]
                  exact ⟨rfl, hwe,
                    Or.inr ⟨hj, WorkerState.idle, hws, Or.inr rfl, hcnt⟩⟩
          | producing rest =>
              obtain ⟨w, hws, hcl, hcnt, hctx⟩ := h
              dsimp only at hws hcl hcnt hctx
              have hw2 := hw
              rw [hws] at hw2
              obtain ⟨hi0, hw0⟩ := singleton_getElem hw2
              subst hi0
              subst hw0
              cases w0 with
              | spawned =>
                  have hred : step 1 fs
                      ⟨.producing rest, ws, cnt, cl, tr⟩ (.workerC 0) =
                      ⟨.producing rest, ws.set 0 .idle, cnt + 1, cl, tr⟩ := by
                    simp only [step, workerStep, hw]
                  rw [hred]
                  refine ⟨WorkerState.idle, by rw [hws]; rfl, hcl, ?_, ?_⟩
                  · rw [hcnt]
                    rfl
                  · exact ctx1_swap hctx rfl
              | idle =>
                  subst hcl
                  have hred : step 1 fs
                      ⟨.producing rest, ws, cnt, false, tr⟩ (.workerC 0) =
                      ⟨.producing rest, ws, cnt, false, tr⟩ := by
                    simp only [step, workerStep, hw, ite_false_bool, if_false]
                  rw [hred]
                  exact ⟨WorkerState.idle, hws, rfl, hcnt, hctx⟩
              | gotWork g =>
                  have hred : step 1 fs
                      ⟨.producing rest, ws, cnt, cl, tr⟩ (.workerC 0) =
                      ⟨.producing rest, ws.set 0 (.printedStart g), cnt, cl,
                        tr ++ [Event.start 0 g.name]⟩ := by
                    simp only [step, workerStep, hw]
                  rw [hred]
                  exact ⟨WorkerState.printedStart g, by rw [hws]; rfl, hcl,
                    hcnt, ctx1_start hctx⟩
              | printedStart g =>
                  have hred : step 1 fs
                      ⟨.producing rest, ws, cnt, cl, tr⟩ (.workerC 0) =
                      ⟨.producing rest, ws.set 0 (.builtWork g), cnt, cl,
                        tr ++ (if g.language = "" then [Event.langMsg]
                          else [Event.build g])⟩ := by
                    simp only [step, workerStep, hw]
                  rw [hred]
                  exact ⟨WorkerState.builtWork g, by rw [hws]; rfl, hcl,
                    hcnt, ctx1_buildstep hctx⟩
              | builtWork g =>
                  have hred : step 1 fs
                      ⟨.producing rest, ws, cnt, cl, tr⟩ (.workerC 0) =
                      ⟨.producing rest, ws.set 0 .idle, cnt, cl,
                        tr ++ [Event.done 0 g.name]⟩ := by
                    simp only [step, workerStep, hw]
                  rw [hred]
                  exact ⟨WorkerState.idle, by rw [hws]; rfl, hcl, hcnt,
                    ctx1_donemark hctx⟩
              | exited =>
                  have hred : step 1 fs
                      ⟨.producing rest, ws, cnt, cl, tr⟩ (.workerC 0) =
                      ⟨.producing rest, ws, cnt, cl, tr⟩ := by
                    simp only [step, workerStep, hw]
                  rw [hred]
                  exact ⟨WorkerState.exited, hws, hcl, hcnt, hctx⟩
          | sending g rest =>
              obtain ⟨w, hws, hcl, hcnt, hctx⟩ := h
              dsimp only at hws hcl hcnt hctx
              have hw2 := hw
              rw [hws] at hw2
              obtain ⟨hi0, hw0⟩ := singleton_getElem hw2
              subst hi0
              subst hw0
              cases w0 with
              | spawned =>
                  have hred : step 1 fs
                      ⟨.sending g rest, ws, cnt, cl, tr⟩ (.workerC 0) =
                      ⟨.sending g rest, ws.set 0 .idle, cnt + 1, cl, tr⟩ := by
                    simp only [step, workerStep, hw]
                  rw [hred]
                  refine ⟨WorkerState.idle, by rw [hws]; rfl, hcl, ?_, ?_⟩
                  · rw [hcnt]
                    rfl
                  · exact ctx1_swap hctx rfl
              | idle =>
                  have hred : step 1 fs
                      ⟨.sending g rest, ws, cnt, cl, tr⟩ (.workerC 0) =
                      ⟨.producing rest, ws.set 0 (.gotWork g), cnt, cl,
                        tr ++ [Event.handoff g.name]⟩ := by
                    simp only [step, workerStep, hw]
                  rw [hred]
                  exact ⟨WorkerState.gotWork g, by rw [hws]; rfl, hcl, hcnt,
                    ctx1_rendezvous hctx⟩
              | gotWork g2 =>
                  have hred : step 1 fs
                      ⟨.sending g rest, ws, cnt, cl, tr⟩ (.workerC 0) =
                      ⟨.sending g rest, ws.set 0 (.printedStart g2), cnt, cl,
                        tr ++ [Event.start 0 g2.name]⟩ := by
                    simp only [step, workerStep, hw]
                  rw [hred]
                  exact ⟨WorkerState.printedStart g2, by rw [hws]; rfl, hcl,
                    hcnt, ctx1_start hctx⟩
              | printedStart g2 =>
                  have hred : step 1 fs
                      ⟨.sending g rest, ws, cnt, cl, tr⟩ (.workerC 0) =
                      ⟨.sending g rest, ws.set 0 (.builtWork g2), cnt, cl,
                        tr ++ (if g2.language = "" then [Event.langMsg]
                          else [Event.build g2])⟩ := by
                    simp only [step, workerStep, hw]
                  rw [hred]
                  exact ⟨WorkerState.builtWork g2, by rw [hws]; rfl, hcl,
                    hcnt, ctx1_buildstep hctx⟩
              | builtWork g2 =>
                  have hred : step 1 fs
                      ⟨.sending g rest, ws, cnt, cl, tr⟩ (.workerC 0) =
                      ⟨.sending g rest, ws.set 0 .idle, cnt, cl,
                        tr ++ [Event.done 0 g2.name]⟩ := by
                    simp only [step, workerStep, hw]
                  rw [hred]
                  exact ⟨WorkerState.idle, by rw [hws]; rfl, hcl, hcnt,
                    ctx1_donemark hctx⟩
              | exited =>
                  have hred : step 1 fs
                      ⟨.sending g rest, ws, cnt, cl, tr⟩ (.workerC 0) =
                      ⟨.sending g rest, ws, cnt, cl, tr⟩ := by
                    simp only [step, workerStep, hw]
                  rw [hred]
                  exact ⟨WorkerState.exited, hws, hcl, hcnt, hctx⟩
          | waiting =>
              obtain ⟨w, hws, hcl, hcnt, hctx⟩ := h
              dsimp only at hws hcl hcnt hctx
              have hw2 := hw
              rw [hws] at hw2
              obtain ⟨hi0, hw0⟩ := singleton_getElem hw2
              subst hi0
              subst hw0
              subst hcl
              cases w0 with
              | spawned =>
                  have hred : step 1 fs
                      ⟨.waiting, ws, cnt, true, tr⟩ (.workerC 0) =
                      ⟨.waiting, ws.set 0 .idle, cnt + 1, true, tr⟩ := by
                    simp only [step, workerStep, hw]
                  rw [hred]
                  refine ⟨WorkerState.idle, by rw [hws]; rfl, rfl, ?_, ?_⟩
                  · rw [hcnt]
                    rfl
                  · exact ctx1_swap hctx rfl
              | idle =>
                  have hred : step 1 fs
                      ⟨.waiting, ws, cnt, true, tr⟩ (.workerC 0) =
                      ⟨.waiting, ws.set 0 .exited, cnt - 1, true,
                        tr ++ [Event.workerDone 0]⟩ := by
                    simp only [step, workerStep, hw, ite_true_bool, if_true]
                  rw [hred]
                  refine ⟨WorkerState.exited, by rw [hws]; rfl, rfl, ?_, ?_⟩
                  · rw [hcnt]
                    rfl
                  · exact ctx1_nonwork hctx rfl (Event.workerDone 0) rfl
              | gotWork g =>
                  have hred : step 1 fs
                      ⟨.waiting, ws, cnt, true, tr⟩ (.workerC 0) =
                      ⟨.waiting, ws.set 0 (.printedStart g), cnt, true,
                        tr ++ [Event.start 0 g.name]⟩ := by
                    simp only [step, workerStep, hw]
                  rw [hred]
                  exact ⟨WorkerState.printedStart g, by rw [hws]; rfl, rfl,
                    hcnt, ctx1_start hctx⟩
              | printedStart g =>
                  have hred : step 1 fs
                      ⟨.waiting, ws, cnt, true, tr⟩ (.workerC 0) =
                      ⟨.waiting, ws.set 0 (.builtWork g), cnt, true,
                        tr ++ (if g.language = "" then [Event.langMsg]
                          else [Event.build g])⟩ := by
                    simp only [step, workerStep, hw]
                  rw [hred]
                  exact ⟨WorkerState.builtWork g, by rw [hws]; rfl, rfl,
                    hcnt, ctx1_buildstep hctx⟩
              | builtWork g =>
                  have hred : step 1 fs
                      ⟨.waiting, ws, cnt, true, tr⟩ (.workerC 0) =
                      ⟨.waiting, ws.set 0 .idle, cnt, true,
                        tr ++ [Event.done 0 g.name]⟩ := by
                    simp only [step, workerStep, hw]
                  rw [hred]
                  exact ⟨WorkerState.idle, by rw [hws]; rfl, rfl, hcnt,
                    ctx1_donemark hctx⟩
              | exited =>
                  have hred : step 1 fs
                      ⟨.waiting, ws, cnt, true, tr⟩ (.workerC 0) =
                      ⟨.waiting, ws, cnt, true, tr⟩ := by
                    simp only [step, workerStep, hw]
                  rw [hred]
                  exact ⟨WorkerState.exited, hws, rfl, hcnt, hctx⟩
          | returned =>
              obtain ⟨w, hws, hcl, hrw, hwe⟩ := h
              dsimp only at hws hcl hwe
              have hw2 := hw
              rw [hws] at hw2
              obtain ⟨hi0, hw0⟩ := singleton_getElem hw2
              subst hi0
              subst hw0
              subst hcl
              cases w0 with
              | spawned =>
                  have hred : step 1 fs
                      ⟨.returned, ws, cnt, true, tr⟩ (.workerC 0) =
                      ⟨.returned, ws.set 0 .idle, cnt + 1, true, tr⟩ := by
                    simp only [step, workerStep, hw]
                  rw [hred]
                  exact ⟨WorkerState.idle, by rw [hws]; rfl, rfl, rfl, hwe⟩
              | idle =>
                  have hred : step 1 fs
                      ⟨.returned, ws, cnt, true, tr⟩ (.workerC 0) =
                      ⟨.returned, ws.set 0 .exited, cnt - 1, true,
                        tr ++ [Event.workerDone 0]⟩ := by
                    simp only [step, workerStep, hw, ite_true_bool, if_true]
                  rw [hred]
                  refine ⟨WorkerState.exited, by rw [hws]; rfl, rfl, rfl, ?_⟩
                  rw [workEvents_snoc_nonwork tr (Event.workerDone 0) rfl]
                  exact hwe
              | gotWork g =>
                  exact absurd hrw (by simp [restEvents, expectedTriple])
              | printedStart g =>
                  exfalso
                  simp only [restEvents] at hrw
                  rcases List.append_eq_nil.mp hrw with ⟨_, hcons⟩
                  cases hcons
              | builtWork g =>
                  exact absurd hrw (by simp [restEvents])
              | exited =>
                  have hred : step 1 fs
                      ⟨.returned, ws, cnt, true, tr⟩ (.workerC 0) =
                      ⟨.returned, ws, cnt, true, tr⟩ := by
                    simp only [step, workerStep, hw]
                  rw [hred]
                  exact ⟨WorkerState.exited, hws, rfl, rfl, hwe⟩

theorem inv1_run (fs : FunctionSet) (sched : List Choice) :
    Inv1 fs (run fs 1 sched) := by
  suffices hgen : ∀ s, Inv1 fs s → Inv1 fs (sched.foldl (step 1 fs) s) by
    exact hgen initState ⟨rfl, rfl, Or.inl ⟨rfl, rfl, rfl⟩⟩
  induction sched with
  | nil =>
      intro s hs
      exact hs
  | cons c cs ih =>
      intro s hs
      exact ih (step 1 fs s c) (inv1_step hs c)

/-- C4: dispatch with `parallel = 1` is the sequential loop: in every
interleaving that completes, the build events of the trace (start markers,
Build Executor calls or empty-language messages, done markers) are exactly
those of the sequential reference `seqBuildLoop`, which walks the
FunctionSet in iteration order and finishes each non-skipped function's
start marker, build and done marker before the next one begins, all on
worker 0. -/
theorem c4_parallel_one_is_sequential (fs : FunctionSet)
    (sched : List Choice) (hret : (run fs 1 sched).main = .returned) :
    workEvents (run fs 1 sched).trace = seqBuildLoop fs := by
  have h := inv1_run fs sched
  rcases hrun : run fs 1 sched with ⟨m, ws, cnt, cl, tr⟩
  rw [hrun] at h hret
  dsimp only at hret
  subst hret
  obtain ⟨w, hws, hcl, hrw, hwe⟩ := h
  dsimp only at hwe
  exact hwe

def schedSeq : List Choice :=
  [.mainC, .mainC, .workerC 0,
   .mainC, .workerC 0, .workerC 0, .workerC 0, .workerC 0,
   .mainC, .workerC 0, .workerC 0, .workerC 0, .workerC 0,
   .mainC, .mainC, .workerC 0, .mainC]

/-- C4 witness: a complete `parallel = 1` dispatch of `fsW` produces
exactly the sequential reference trace. -/
theorem c4_witness :
    ((run fsW 1 schedSeq).main = .returned) ∧
    workEvents (run fsW 1 schedSeq).trace = seqBuildLoop fsW :=
  ⟨by decide, c4_parallel_one_is_sequential fsW schedSeq (by decide)⟩

end FaasCli
